import Mathlib

/-!
# Verification of the cryptopals oracle-driven plaintext-recovery attacks

Shallow embedding of the Go sources of the cryptopals solutions repository.
Bytes are natural numbers (values below 256 where it matters), byte slices are
lists of naturals, and the AES block cipher under a fixed hidden key is an
abstract pair of maps on 16-byte blocks (an encryption map and a decryption
map), so every theorem quantifies over the cipher instead of fixing AES.
Go functions returning (value, error) become Option-valued Lean functions;
a Go panic is likewise modelled as the none result of an Option.
Unbounded Go for-loops are embedded with an explicit fuel argument; theorems
supply enough fuel and state it explicitly.
-/

namespace Cryptopals

/-- The AES block size, aes.BlockSize in the Go sources. -/
def blkSize : Nat := 16

/-- cppad.PKCS7: pads data to a multiple of size by appending pad copies of
the byte value pad, where pad = size - len(data) % size. -/
def pkcs7 (data : List Nat) (size : Nat) : List Nat :=
  data ++
    List.replicate (size - data.length % size) (size - data.length % size)

/-- cppad.RemovePKCS7: deletes PKCS7 padding. Empty input is returned as is;
an error (here: none) is reported when the last byte is 0, when it exceeds the
data length, or when the trailing lastByte bytes are not all equal to it. -/
def removePKCS7 (data : List Nat) : Option (List Nat) :=
  if data.length = 0 then some data
  else if data.getLastD 0 = 0 then none
  else if data.length < data.getLastD 0 then none
  else if (data.drop (data.length - data.getLastD 0)).all
      (fun b => b == data.getLastD 0) then
    some (data.take (data.length - data.getLastD 0))
  else none

/-- Structural worker for chunksOf. The counter only bounds the recursion
depth; data.length is always enough, since every step drops at least one
byte. -/
def chunksOfAux : Nat → List Nat → Nat → List (List Nat)
  | 0, _, _ => []
  | fuelN + 1, data, n =>
    if data.length = 0 ∨ n = 0 then []
    else data.take n :: chunksOfAux fuelN (data.drop n) n

/-- Partition of a byte sequence into consecutive chunks of n bytes (the
slicing loop shared by cpbytes.ToChunks, cpaes.bytesToChunks and the per-block
loops of the ECB/CBC routines). -/
def chunksOf (data : List Nat) (n : Nat) : List (List Nat) :=
  chunksOfAux data.length data n

/-- cpbytes.ToChunks: errors (none) on empty data, a chunk size of zero, or a
length that is not a multiple of the chunk size. -/
def toChunksE (data : List Nat) (n : Nat) : Option (List (List Nat)) :=
  if data.length = 0 then none
  else if n = 0 then none
  else if data.length % n ≠ 0 then none
  else some (chunksOf data n)

/-- cpxor.Blocks: byte-wise xor of two slices, error (none) when the lengths
differ. -/
def xorBlocks (b1 b2 : List Nat) : Option (List Nat) :=
  if b1.length ≠ b2.length then none
  else some (List.zipWith Nat.xor b1 b2)

/-- The duplicate-block scan inside cpaes.detectECB: each block is looked up
in the set of blocks seen so far (a Go map keyed by the exact byte content,
embedded as list membership); a block already present reports true. -/
def hasDupBlk : List (List Nat) → List (List Nat) → Bool
  | [], _ => false
  | b :: rest, seen => if b ∈ seen then true else hasDupBlk rest (b :: seen)

/-- cpaes.detectECB: reports whether the cipher text holds two identical
blocks of the consecutive-block partition; a length that is not a multiple of
the block size yields false. -/
def detectECB (cipherText : List Nat) : Bool :=
  if cipherText.length % blkSize ≠ 0 then false
  else hasDupBlk (chunksOf cipherText blkSize) []

/-- ECB encryption with an abstract block-encryption map E (cpaes.encryptECB
with the AES key fixed): PKCS7-pad the plain text, then encrypt each 16-byte
block and concatenate the encrypted blocks. -/
def ecbEncrypt (E : List Nat → List Nat) (plainText : List Nat) : List Nat :=
  ((chunksOf (pkcs7 plainText blkSize) blkSize).map E).flatten

/-- The challenge-12 oracle (cpaes.ecbEncryptionOracleWithSecret): appends the
hidden secret to the attacker input, then encrypts with ECB under the hidden
key. -/
def oracleWithSecret (E : List Nat → List Nat) (secret : List Nat)
    (plainText : List Nat) : List Nat :=
  ecbEncrypt E (plainText ++ secret)

/-- cpaes.guessByte: brute-forces the next secret byte by comparing the
oracle output block at blkIdx against targetBlk. The Go loop header is
for i := range 255, so the trial byte runs over 0 through 254 only; the
panic when no trial byte matches is the none result. forged holds
knownBytes ++ recovered secret; the Go code writes the trial byte into the
extra last slot of the slice, embedded here by appending it. -/
def guessByte (oracle : List Nat → List Nat) (forged : List Nat)
    (targetBlk : List Nat) (blkIdx : Nat) : Option Nat :=
  (List.range 255).find? (fun g =>
    ((oracle (forged ++ [g])).drop (blkIdx * targetBlk.length)).take
        targetBlk.length == targetBlk)

/-- The probe loop of cpaes.findECBBlockSizeAndSuffixLength: feed i zero
bytes for i = 1, 2, ... until the cipher text length first grows; the growth
is the block size and cipherLen - i is the suffix length. The Go loop is
unbounded; fuel bounds the embedding. -/
def findSizeLoop (oracle : List Nat → List Nat) (cipherLen : Nat) :
    Nat → Nat → Option (Nat × Nat)
  | 0, _ => none
  | fuel + 1, i =>
    if cipherLen < (oracle (List.replicate i 0)).length then
      some ((oracle (List.replicate i 0)).length - cipherLen, cipherLen - i)
    else findSizeLoop oracle cipherLen fuel (i + 1)

/-- cpaes.findECBBlockSizeAndSuffixLength. -/
def findECBBlockSizeAndSuffixLength (oracle : List Nat → List Nat)
    (fuel : Nat) : Option (Nat × Nat) :=
  findSizeLoop oracle (oracle []).length fuel 1

/-- cpaes.makeBlockDict: the zero-filled filler blocks of lengths 0 up to
n - 1. -/
def makeBlockDict (n : Nat) : List (List Nat) :=
  (List.range n).map (fun size => List.replicate size 0)

/-- The nested recovery loop of cpaes.byteAtTimeAtk: for each pair of a block
index and a filler size (sizes run from blkSize - 1 down to 0 inside each
block), guess one byte and append it, returning as soon as secretLen bytes
are recovered. Falling off the end of both loops is the final Go panic,
embedded as none; a failed guess propagates the guessByte panic. -/
def byteAtTimeLoop (oracle : List Nat → List Nat)
    (blkDict cache : List (List Nat)) (secretLen : Nat) :
    List (Nat × Nat) → List Nat → Option (List Nat)
  | [], _ => none
  | (blkIdx, size) :: rest, secret =>
    match guessByte oracle (blkDict.getD size [] ++ secret)
        (((cache.getD size []).drop (blkIdx * blkSize)).take blkSize) blkIdx with
    | none => none
    | some g =>
      if secret.length + 1 = secretLen then some (secret ++ [g])
      else byteAtTimeLoop oracle blkDict cache secretLen rest (secret ++ [g])

/-- cpaes.byteAtTimeAtk: discover block size and secret length, sanity-check
the oracle (AES block size, ECB mode), build the filler dictionary and the
cipher-text cache, then recover the secret byte by byte. -/
def byteAtTimeAtk (oracle : List Nat → List Nat) (fuel : Nat) :
    Option (List Nat) :=
  match findECBBlockSizeAndSuffixLength oracle fuel with
  | none => none
  | some (bs, secretLen) =>
    if bs ≠ blkSize then none
    else if ¬ detectECB (oracle (List.replicate (bs * 2) 0)) then none
    else
      byteAtTimeLoop oracle (makeBlockDict bs) ((makeBlockDict bs).map oracle)
        secretLen
        ((List.range ((secretLen + bs - 1) / bs)).flatMap
          (fun b => (List.range bs).reverse.map (fun s => (b, s)))) []

/-- cpaes.ecbEncryptionOracleWithPrefix: prepend the hidden random prefix
to the attacker input before handing it to the secret-appending oracle. -/
def oracleWithPfx (E : List Nat → List Nat) (pfx secret : List Nat)
    (plainText : List Nat) : List Nat :=
  oracleWithSecret E secret (pfx ++ plainText)

/-- The wrapper oracle built inside cpaes.byteAtTimeAtkWithPrefix: prepend
fillBytesAfterPrefix = blkSize - prefixLen % blkSize zero bytes to the
attacker input, so that (prefix, filler) ends on a block boundary, and strip
prefixLen + fillBytesAfterPrefix bytes from the oracle output. -/
def wrapperOracle (ecbOracle : List Nat → List Nat) (prefixLen : Nat)
    (plainText : List Nat) : List Nat :=
  (ecbOracle
    (List.replicate (blkSize - prefixLen % blkSize) 0 ++ plainText)).drop
    (prefixLen + (blkSize - prefixLen % blkSize))

/-- The inner block scan of cpaes.findPrefixLen: walk the consecutive
16-byte block pairs of the cipher text (prevBlk against the block at
blkIdx, for blkIdx = 1 .. nBlks - 1) and return the first index whose
block equals the previous one. -/
def innerScan (ct : List Nat) : Option Nat :=
  (List.range' 1 (ct.length / blkSize - 1)).find?
    (fun blkIdx => ((ct.drop ((blkIdx - 1) * blkSize)).take blkSize ==
      (ct.drop (blkIdx * blkSize)).take blkSize))

/-- The unbounded outer loop of cpaes.findPrefixLen, given fuel: feed
fillBytes zero bytes to the oracle, return
(blkIdx - 1) * blkSize - (fillBytes - blkSize * 2) at the first duplicate
pair, otherwise grow fillBytes by one. -/
def findPrefixLenLoop (ecbOracle : List Nat → List Nat) :
    Nat → Nat → Option Nat
  | 0, _ => none
  | fuel + 1, fillBytes =>
    match innerScan (ecbOracle (List.replicate fillBytes 0)) with
    | some blkIdx =>
      some ((blkIdx - 1) * blkSize - (fillBytes - blkSize * 2))
    | none => findPrefixLenLoop ecbOracle fuel (fillBytes + 1)

/-- cpaes.findPrefixLen: starting from fillBytes = blkSize * 2, find the
filler amount at which two identical consecutive cipher-text blocks appear
and back-compute the prefix length from the duplicate position. -/
def findPrefixLen (ecbOracle : List Nat → List Nat) (fuel : Nat) :
    Option Nat :=
  findPrefixLenLoop ecbOracle fuel (blkSize * 2)

/-- cpaes.validatePadding: whether RemovePKCS7 accepts the plain text. -/
def validatePadding (plainText : List Nat) : Bool :=
  (removePKCS7 plainText).isSome

/-- The block loop of cpaes.encryptCBC: each plain-text block is xored with
the previous cipher-text block and then encrypted. -/
def cbcEncLoop (E : List Nat → List Nat) :
    List (List Nat) → List Nat → Option (List Nat)
  | [], _ => some []
  | p :: ps, prev =>
    match xorBlocks prev p with
    | none => none
    | some x =>
      match cbcEncLoop E ps (E x) with
      | none => none
      | some rest => some (E x ++ rest)

/-- cpaes.encryptCBC with an abstract block-encryption map E: check the IV
length, PKCS7-pad, xor the first block with the IV and every later block
with the previous cipher-text block, encrypting each result. -/
def encryptCBC (E : List Nat → List Nat) (iv plainText : List Nat) :
    Option (List Nat) :=
  if iv.length % blkSize ≠ 0 then none
  else
    match chunksOf (pkcs7 plainText blkSize) blkSize with
    | [] => none
    | p0 :: ps =>
      match xorBlocks p0 iv with
      | none => none
      | some x0 =>
        match cbcEncLoop E ps (E x0) with
        | none => none
        | some rest => some (E x0 ++ rest)

/-- The block loop of cpaes.decryptCBC: each cipher-text block is decrypted
and xored with the previous cipher-text block. -/
def cbcDecLoop (D : List Nat → List Nat) :
    List (List Nat) → List Nat → Option (List Nat)
  | [], _ => some []
  | c :: cs, prev =>
    match xorBlocks prev (D c) with
    | none => none
    | some p =>
      match cbcDecLoop D cs c with
      | none => none
      | some rest => some (p ++ rest)

/-- cpaes.decryptCBC with an abstract block-decryption map D. The returned
plain text retains the PKCS7 padding. An empty cipher text is the Go
slice-out-of-range panic on cipherText[:blkSize], embedded as none. -/
def decryptCBC (D : List Nat → List Nat) (iv cipherText : List Nat) :
    Option (List Nat) :=
  if cipherText.length % blkSize ≠ 0 then none
  else if iv.length % blkSize ≠ 0 then none
  else
    match chunksOf cipherText blkSize with
    | [] => none
    | c0 :: cs =>
      match xorBlocks (D c0) iv with
      | none => none
      | some p0 =>
        match cbcDecLoop D cs c0 with
        | none => none
        | some rest => some (p0 ++ rest)

/-- The decryption oracle built by cpaes.newPaddingOracleAtkTools: it expects
the IV prepended to the cipher text; a decryption error is a Go panic,
embedded by returning the empty slice (never hit on the attack's 32-byte
queries). -/
def mkDecOracle (D : List Nat → List Nat) (cipherText : List Nat) : List Nat :=
  (decryptCBC D (cipherText.take blkSize) (cipherText.drop blkSize)).getD []

/-- The inner brute force of cpaes.paddingOracleAtkBlk: the first byte value
b in 0..255 for which the decryption oracle reports valid padding on
(iv with byte guessIdx set to b) prepended to the cipher-text block. -/
def findFirstValid (decOracle : List Nat → List Nat) (iv c : List Nat)
    (guessIdx : Nat) : Option Nat :=
  (List.range 256).find? (fun b =>
    validatePadding (decOracle (iv.set guessIdx b ++ c)))

/-- One round of cpaes.paddingOracleAtkBlk at pad length padBytes: brute
force the IV byte at guessIdx = blkSize - padBytes; on success the byte stays
in the IV and triedByte xor padBytes is recorded, while a fruitless loop
leaves the IV byte at its last tried value 255 and the recorded block
unchanged; finally every IV byte from guessIdx on is xored with
padBytes xor (padBytes + 1) to target the next pad length. -/
def atkRound (decOracle : List Nat → List Nat) (c : List Nat)
    (padBytes : Nat) (iv recovered : List Nat) : List Nat × List Nat :=
  let guessIdx := blkSize - padBytes
  let iv1 := match findFirstValid decOracle iv c guessIdx with
    | some b => iv.set guessIdx b
    | none => iv.set guessIdx 255
  let recovered1 := match findFirstValid decOracle iv c guessIdx with
    | some b => recovered.set guessIdx (Nat.xor b padBytes)
    | none => recovered
  (iv1.mapIdx (fun j v =>
      if guessIdx ≤ j then Nat.xor v (Nat.xor padBytes (padBytes + 1)) else v),
    recovered1)

/-- The rounds loop of cpaes.paddingOracleAtkBlk, padBytes = 1 up to
blkSize; the first argument counts the remaining rounds. -/
def atkRounds (decOracle : List Nat → List Nat) (c : List Nat) :
    Nat → Nat → List Nat → List Nat → List Nat
  | 0, _, _, recovered => recovered
  | fuelN + 1, padBytes, iv, recovered =>
    atkRounds decOracle c fuelN (padBytes + 1)
      (atkRound decOracle c padBytes iv recovered).1
      (atkRound decOracle c padBytes iv recovered).2

/-- cpaes.paddingOracleAtkBlk: recover the block-cipher decryption of one
cipher-text block through the padding oracle, by solving the working IV from
the last byte to the first. -/
def paddingOracleAtkBlk (iv c : List Nat)
    (decOracle : List Nat → List Nat) : List Nat :=
  atkRounds decOracle c blkSize 1 iv (List.replicate blkSize 0)

/-- The per-block loop of cpaes.cbcPaddingOracleAtk: recover each block's
intermediate decryption with a fresh all-zero working IV, xor it with the
previous cipher-text block (the true IV first), and accumulate. -/
def cbcAtkBlocks (decOracle : List Nat → List Nat) :
    List (List Nat) → List Nat → List Nat → Option (List Nat)
  | [], _, acc => some acc
  | blk :: rest, prevBlk, acc =>
    match xorBlocks prevBlk
        (paddingOracleAtkBlk (List.replicate blkSize 0) blk decOracle) with
    | none => none
    | some ptBlk => cbcAtkBlocks decOracle rest blk (acc ++ ptBlk)

/-- cpaes.cbcPaddingOracleAtk: fetch the cipher text from the encryption
oracle (which ignores its input), chunk it into blocks, and recover the
padded plain text block by block. -/
def cbcPaddingOracleAtk (encOracle decOracle : List Nat → List Nat)
    (iv : List Nat) : Option (List Nat) :=
  match toChunksE (encOracle []) blkSize with
  | none => none
  | some blks => cbcAtkBlocks decOracle blks iv []

section BasicLemmas

theorem chunksOfAux_fuel (f1 : Nat) :
    ∀ f2 data n, data.length ≤ f1 → data.length ≤ f2 →
      chunksOfAux f1 data n = chunksOfAux f2 data n := by
  induction f1 with
  | zero =>
    intro f2 data n h1 _
    have hdata : data = [] := List.length_eq_zero.mp (Nat.le_zero.mp h1)
    subst hdata
    cases f2 <;> simp [chunksOfAux]
  | succ k ih =>
    intro f2 data n h1 h2
    by_cases hd : data.length = 0
    · have hdata : data = [] := List.length_eq_zero.mp hd
      subst hdata
      cases f2 <;> simp [chunksOfAux]
    · cases f2 with
      | zero => omega
      | succ k2 =>
        simp only [chunksOfAux]
        by_cases hn : n = 0
        · simp [hd, hn]
        · rw [if_neg (by simp [hd, hn]), if_neg (by simp [hd, hn])]
          have hlt : (data.drop n).length ≤ k := by
            simp only [List.length_drop]
            omega
          have hlt2 : (data.drop n).length ≤ k2 := by
            simp only [List.length_drop]
            omega
          rw [ih k2 (data.drop n) n hlt hlt2]

theorem chunksOf_nil (n : Nat) : chunksOf [] n = [] := rfl

theorem chunksOf_zero (data : List Nat) : chunksOf data 0 = [] := by
  cases data <;> simp [chunksOf, chunksOfAux]

theorem chunksOf_cons (data : List Nat) (n : Nat) (hd : data ≠ []) (hn : n ≠ 0) :
    chunksOf data n = data.take n :: chunksOf (data.drop n) n := by
  have hlen : data.length ≠ 0 := by simpa using hd
  obtain ⟨k, hk⟩ : ∃ k, data.length = k + 1 := by
    cases hcl : data.length with
    | zero => exact absurd hcl hlen
    | succ m => exact ⟨m, rfl⟩
  rw [chunksOf, hk]
  simp only [chunksOfAux]
  rw [if_neg (by simp [hlen, hn]), chunksOf]
  congr 1
  exact chunksOfAux_fuel k (data.drop n).length (data.drop n) n
    (by simp only [List.length_drop]; omega) (Nat.le_refl _)

theorem hasDupBlk_iff (l : List (List Nat)) :
    ∀ seen, hasDupBlk l seen = true ↔ ¬ l.Nodup ∨ ∃ b ∈ l, b ∈ seen := by
  induction l with
  | nil => intro seen; simp [hasDupBlk]
  | cons b rest ih =>
    intro seen
    by_cases hb : b ∈ seen
    · simp [hasDupBlk, hb]
    · simp only [hasDupBlk, hb, if_false]
      rw [ih (b :: seen)]
      simp only [List.nodup_cons, List.mem_cons]
      constructor
      · rintro (h | ⟨x, hx, (rfl | hxs)⟩)
        · exact Or.inl (fun hc => h hc.2)
        · exact Or.inl (fun hc => hc.1 hx)
        · exact Or.inr ⟨x, Or.inr hx, hxs⟩
      · rintro (h | ⟨x, (rfl | hx), hxs⟩)
        · by_cases hbr : b ∈ rest
          · exact Or.inr ⟨b, hbr, Or.inl rfl⟩
          · exact Or.inl (fun hr => h ⟨hbr, hr⟩)
        · exact absurd hxs hb
        · exact Or.inr ⟨x, hx, Or.inr hxs⟩

theorem hasDupBlk_nil_iff (l : List (List Nat)) :
    hasDupBlk l [] = true ↔ ¬ l.Nodup := by
  rw [hasDupBlk_iff]
  simp

end BasicLemmas

/-- C8: detectECB returns true exactly when the length is a multiple of the
16-byte block size and two block positions of the consecutive-block partition
hold identical byte content; a length that is not a multiple of the block size
yields false rather than an error. -/
theorem detectECB_spec (cipherText : List Nat) :
    (detectECB cipherText = true ↔
      cipherText.length % blkSize = 0 ∧
        ∃ i j, i < j ∧ j < (chunksOf cipherText blkSize).length ∧
          (chunksOf cipherText blkSize)[i]? = (chunksOf cipherText blkSize)[j]?) ∧
    (cipherText.length % blkSize ≠ 0 → detectECB cipherText = false) := by
  constructor
  · by_cases hmod : cipherText.length % blkSize = 0
    · rw [detectECB, if_neg (by simpa using hmod), hasDupBlk_nil_iff,
        List.nodup_iff_getElem?_ne_getElem?]
      push_neg
      constructor
      · rintro ⟨i, j, hij, hjl, hget⟩
        exact ⟨hmod, i, j, hij, hjl, hget⟩
      · rintro ⟨_, i, j, hij, hjl, hget⟩
        exact ⟨i, j, hij, hjl, hget⟩
    · rw [detectECB, if_pos (by simpa using hmod)]
      refine ⟨fun h => absurd h (by simp), ?_⟩
      rintro ⟨h, _⟩
      exact absurd h hmod
  · intro hmod
    rw [detectECB, if_pos (by simpa using hmod)]

/-- C9: RemovePKCS7 fails (none) exactly when the data is non-empty and its
last byte is 0, or exceeds the data length, or the trailing lastByte bytes are
not all equal to it; in every other case (including empty input) it succeeds
and returns the data with the last lastByte bytes removed. -/
theorem removePKCS7_spec (data : List Nat) :
    (removePKCS7 data = none ↔
      data ≠ [] ∧
        (data.getLastD 0 = 0 ∨ data.length < data.getLastD 0 ∨
          ¬ ∀ b ∈ data.drop (data.length - data.getLastD 0), b = data.getLastD 0)) ∧
    (∀ r, removePKCS7 data = some r →
      r = data.take (data.length - data.getLastD 0)) := by
  by_cases h0 : data.length = 0
  · have hdata : data = [] := List.length_eq_zero.mp h0
    subst hdata
    simp [removePKCS7]
  · have hne : data ≠ [] := fun h => h0 (by simp [h])
    by_cases h1 : data.getLastD 0 = 0
    · rw [removePKCS7, if_neg h0, if_pos h1]
      refine ⟨⟨fun _ => ⟨hne, Or.inl h1⟩, fun _ => rfl⟩, fun r hr => by cases hr⟩
    · by_cases h2 : data.length < data.getLastD 0
      · rw [removePKCS7, if_neg h0, if_neg h1, if_pos h2]
        refine ⟨⟨fun _ => ⟨hne, Or.inr (Or.inl h2)⟩, fun _ => rfl⟩,
          fun r hr => by cases hr⟩
      · by_cases h3 : (data.drop (data.length - data.getLastD 0)).all
            (fun b => b == data.getLastD 0) = true
        · rw [removePKCS7, if_neg h0, if_neg h1, if_neg h2, if_pos h3]
          have hall : ∀ b ∈ data.drop (data.length - data.getLastD 0),
              b = data.getLastD 0 := by
            intro b hb
            have := List.all_eq_true.mp h3 b hb
            simpa using this
          constructor
          · constructor
            · intro h
              exact Option.noConfusion h
            · rintro ⟨_, (h | h | h)⟩
              · exact absurd h h1
              · exact absurd h h2
              · exact absurd hall h
          · intro r hr
            injection hr with hr
            exact hr.symm
        · rw [removePKCS7, if_neg h0, if_neg h1, if_neg h2, if_neg h3]
          refine ⟨⟨fun _ => ⟨hne, Or.inr (Or.inr ?_)⟩, fun _ => rfl⟩,
            fun r hr => by cases hr⟩
          intro hall
          exact h3 (List.all_eq_true.mpr (fun b hb => by simpa using hall b hb))

/-- C10: for 1 <= s <= 255, PKCS7 appends exactly p copies of the byte value
p, where p = s - len(data) % s; p always lies between 1 and s, the padded
length is a multiple of s, and it strictly exceeds the input length. -/
theorem pkcs7_spec (data : List Nat) (s : Nat) (h1 : 1 ≤ s) (h2 : s ≤ 255) :
    pkcs7 data s =
        data ++ List.replicate (s - data.length % s) (s - data.length % s) ∧
      1 ≤ s - data.length % s ∧ s - data.length % s ≤ s ∧
      (pkcs7 data s).length % s = 0 ∧ data.length < (pkcs7 data s).length := by
  have hmod : data.length % s < s := Nat.mod_lt _ h1
  have hlen : (pkcs7 data s).length = data.length + (s - data.length % s) := by
    simp [pkcs7]
  refine ⟨rfl, by omega, by omega, ?_, ?_⟩
  · rw [hlen]
    have hdm := Nat.div_add_mod data.length s
    have heq : data.length + (s - data.length % s) = s * (data.length / s + 1) := by
      rw [Nat.mul_add, Nat.mul_one]
      omega
    rw [heq, Nat.mul_mod_right]
  · rw [hlen]
    omega

/-- C2 (code bug): the guess loop tries only the trial bytes 0 through 254
(Go: for i := range 255), so when the next secret byte is 255 it finds no
match and panics (none), although trial byte 255 would reproduce the target
block exactly. Demonstrated with the identity block cipher, the one-byte
secret [255], the 15-byte zero filler and block index 0, where the target
block is the first block of the cached cipher text for that filler. -/
theorem guessByte_spec :
    guessByte (oracleWithSecret id [255]) (List.replicate 15 0)
        (((oracleWithSecret id [255]) (List.replicate 15 0)).take blkSize) 0 =
      none ∧
    (((oracleWithSecret id [255]) (List.replicate 15 0 ++ [255])).drop
          (0 * blkSize)).take blkSize =
      ((oracleWithSecret id [255]) (List.replicate 15 0)).take blkSize := by
  decide

section FindRange

theorem find?_range_eq_some {p : Nat → Bool} {n m : Nat} (hm : m < n)
    (hpm : p m = true) (hlt : ∀ j, j < m → p j = false) :
    (List.range n).find? p = some m := by
  have e1 := List.range'_append 0 m (n - m) 1
  simp only [Nat.zero_add, Nat.one_mul] at e1
  have e2 : n - m + m = n := by omega
  rw [e2] at e1
  obtain ⟨t, ht⟩ : ∃ t, n - m = t + 1 := ⟨n - m - 1, by omega⟩
  have e4 : List.range' m (n - m) = m :: List.range' (m + 1) (n - m - 1) := by
    rw [ht, List.range'_succ]
    simp
  have hsplit : List.range n =
      List.range m ++ m :: List.range' (m + 1) (n - m - 1) := by
    rw [List.range_eq_range', List.range_eq_range', ← e1, e4]
  rw [hsplit, List.find?_append]
  have h2 : List.find? p (List.range m) = none :=
    List.find?_eq_none.mpr (fun x hx => by
      rw [hlt x (List.mem_range.mp hx)]
      simp)
  rw [h2, Option.none_or, List.find?_cons_of_pos _ hpm]

theorem all_drop_iff (p : List Nat) (k : Nat) (f : Nat → Bool) :
    (p.drop k).all f = true ↔
      ∀ j, k ≤ j → j < p.length → f (p.getD j 0) = true := by
  rw [List.all_eq_true]
  constructor
  · intro h j hk hj
    have hj2 : j - k < (p.drop k).length := by
      simp only [List.length_drop]
      omega
    have hg : (p.drop k).get ⟨j - k, hj2⟩ = p.getD j 0 := by
      have hkj : k + (j - k) = j := by omega
      rw [List.get_eq_getElem, List.getElem_drop, List.getD_eq_getElem p 0
        (show j < p.length from hj)]
      congr 1
    exact hg ▸ h _ (List.get_mem _ _ _)
  · intro h x hx
    obtain ⟨i, hi, rfl⟩ := List.mem_iff_getElem.mp hx
    have hki : k + i < p.length := by
      have h2 := hi
      simp only [List.length_drop] at h2
      omega
    rw [List.getElem_drop]
    have := h (k + i) (by omega) hki
    rwa [List.getD_eq_getElem p 0 hki] at this

theorem validatePadding_iff (p : List Nat) (hp : p.length = 16) :
    validatePadding p = true ↔
      p.getD 15 0 ≠ 0 ∧ p.getD 15 0 ≤ 16 ∧
        ∀ j, 16 - p.getD 15 0 ≤ j → j < 16 → p.getD j 0 = p.getD 15 0 := by
  have hlast : p.getLastD 0 = p.getD 15 0 := by
    rw [List.getLastD_eq_getLast?, List.getLast?_eq_getElem?, hp,
      List.getD_eq_getElem?_getD]
  rw [validatePadding, removePKCS7, if_neg (by simp [hp]), hlast]
  by_cases h1 : p.getD 15 0 = 0
  · rw [if_pos h1]
    exact iff_of_false (by simp) (by rintro ⟨h, _, _⟩; exact h h1)
  · rw [if_neg h1]
    by_cases h2 : p.length < p.getD 15 0
    · rw [if_pos h2]
      rw [hp] at h2
      exact iff_of_false (by simp) (by rintro ⟨_, hle, _⟩; omega)
    · rw [if_neg h2]
      rw [hp] at h2
      by_cases h3 : (p.drop (p.length - p.getD 15 0)).all
          (fun b => b == p.getD 15 0) = true
      · rw [if_pos h3]
        refine iff_of_true (by simp) ⟨h1, by omega, ?_⟩
        intro j hj1 hj2
        have := (all_drop_iff p (p.length - p.getD 15 0) _).mp h3 j
          (by omega) (by omega)
        simpa using this
      · rw [if_neg h3]
        refine iff_of_false (by simp) ?_
        rintro ⟨_, _, hall⟩
        apply h3
        rw [all_drop_iff]
        intro j hj1 hj2
        have := hall j (by omega) (by omega)
        simpa [List.getD_eq_getElem?_getD] using this

end FindRange

section CbcRound

theorem chunksOf_single (c : List Nat) (hc : c.length = blkSize) :
    chunksOf c blkSize = [c] := by
  have hne : c ≠ [] := by
    intro h
    rw [h] at hc
    simp [blkSize] at hc
  rw [chunksOf_cons c blkSize hne (by decide), ← hc, List.take_length,
    List.drop_length, chunksOf_nil]

/-- On a single 16-byte block with the 16-byte IV prepended, the tools
decryption oracle computes the block decryption xored with the IV. -/
theorem mkDecOracle_single (D : List Nat → List Nat) (iv c : List Nat)
    (hiv : iv.length = blkSize) (hc : c.length = blkSize)
    (hD : (D c).length = blkSize) :
    mkDecOracle D (iv ++ c) = List.zipWith Nat.xor (D c) iv := by
  rw [mkDecOracle, ← hiv, List.take_left, List.drop_left]
  rw [decryptCBC, if_neg (by simp [hc]), if_neg (by simp [hiv]),
    chunksOf_single c hc]
  simp [xorBlocks, cbcDecLoop, hD, hiv]

theorem getD_zipWith_xor (d iv : List Nat) (hd : d.length = blkSize)
    (hiv : iv.length = blkSize) (j : Nat) (hj : j < blkSize) :
    (List.zipWith Nat.xor d iv).getD j 0 =
      Nat.xor (d.getD j 0) (iv.getD j 0) := by
  have hlen : j < (List.zipWith Nat.xor d iv).length := by
    simp [List.length_zipWith, hd, hiv]
    omega
  rw [List.getD_eq_getElem _ 0 hlen, List.getElem_zipWith,
    List.getD_eq_getElem d 0 (by omega), List.getD_eq_getElem iv 0 (by omega)]

theorem getD_set_self (l : List Nat) (i : Nat) (a : Nat) (hi : i < l.length) :
    (l.set i a).getD i 0 = a := by
  rw [List.getD_eq_getElem?_getD, List.getElem?_set, if_pos rfl, if_pos hi]
  rfl

theorem getD_set_ne (l : List Nat) (i j : Nat) (a : Nat) (hij : i ≠ j) :
    (l.set i a).getD j 0 = l.getD j 0 := by
  rw [List.getD_eq_getElem?_getD, List.getElem?_set, if_neg hij,
    ← List.getD_eq_getElem?_getD]

theorem blkSize_eq : blkSize = 16 := rfl

theorem xor_left_cancel (a b k : Nat) (h : Nat.xor a b = k) :
    b = Nat.xor a k := by
  have h2 : a ^^^ b = k := h
  have h3 : a ^^^ (a ^^^ b) = a ^^^ k := by rw [h2]
  rwa [← Nat.xor_assoc, Nat.xor_self, Nat.zero_xor] at h3

theorem xor_xor_self (a k : Nat) : Nat.xor a (Nat.xor a k) = k := by
  show a ^^^ (a ^^^ k) = k
  rw [← Nat.xor_assoc, Nat.xor_self, Nat.zero_xor]

theorem xor_cancel (a k : Nat) : Nat.xor (Nat.xor a k) k = a :=
  Nat.xor_cancel_right k a

/-- Validity of one brute-force trial at pad length k with 2 ≤ k ≤ 16 and
the already solved IV positions pinned to decrypt to k: the oracle reports
valid padding exactly when the trial byte makes position 16 - k decrypt
to k. -/
theorem validRound_iff (D : List Nat → List Nat) (iv c : List Nat) (k b : Nat)
    (hk2 : 2 ≤ k) (hk16 : k ≤ 16)
    (hiv : iv.length = 16) (hc : c.length = 16)
    (hD : (D c).length = 16)
    (hpin : ∀ j, 16 - k < j → j < 16 →
      Nat.xor ((D c).getD j 0) (iv.getD j 0) = k) :
    (validatePadding (mkDecOracle D (iv.set (16 - k) b ++ c)) = true ↔
      Nat.xor ((D c).getD (16 - k) 0) b = k) := by
  have hivb : (iv.set (16 - k) b).length = 16 := by simp [hiv]
  rw [mkDecOracle_single D _ c (by rw [blkSize_eq]; exact hivb)
    (by rw [blkSize_eq]; exact hc) (by rw [blkSize_eq]; exact hD)]
  have hplen : (List.zipWith Nat.xor (D c) (iv.set (16 - k) b)).length = 16 := by
    simp [List.length_zipWith, hD, hivb]
  rw [validatePadding_iff _ hplen]
  have hgne : 16 - k ≠ 15 := by omega
  have hzip : ∀ j, j < 16 →
      (List.zipWith Nat.xor (D c) (iv.set (16 - k) b)).getD j 0 =
        Nat.xor ((D c).getD j 0) ((iv.set (16 - k) b).getD j 0) := by
    intro j hj
    exact getD_zipWith_xor _ _ (by rw [blkSize_eq]; exact hD)
      (by rw [blkSize_eq]; exact hivb) j (by rw [blkSize_eq]; exact hj)
  have hp15 : (List.zipWith Nat.xor (D c) (iv.set (16 - k) b)).getD 15 0 = k := by
    rw [hzip 15 (by omega), getD_set_ne iv _ _ b hgne]
    exact hpin 15 (by omega) (by omega)
  rw [hp15]
  constructor
  · rintro ⟨_, _, hall⟩
    have h := hall (16 - k) (by omega) (by omega)
    rw [hzip (16 - k) (by omega),
      getD_set_self iv _ b (by rw [hiv]; omega)] at h
    exact h
  · intro hval
    refine ⟨by omega, by omega, ?_⟩
    intro j hj1 hj2
    by_cases hjg : j = 16 - k
    · subst hjg
      rw [hzip (16 - k) (by omega), getD_set_self iv _ b (by rw [hiv]; omega)]
      exact hval
    · rw [hzip j hj2, getD_set_ne iv _ j b (fun h => hjg h.symm)]
      exact hpin j (by omega) hj2

/-- One brute-force round at pad length k, 2 ≤ k ≤ 16, with the solved IV
positions pinned to decrypt to k: the first padding-valid byte is
d(16 - k) xor k for d the block decryption of c, the round records the true
intermediate byte d(16 - k), and the adjusted IV is the found IV with every
position from 16 - k on xored with k xor (k + 1). -/
theorem atkRound_ge2 (D : List Nat → List Nat) (iv recovered c : List Nat)
    (k : Nat) (hk2 : 2 ≤ k) (hk16 : k ≤ 16)
    (hiv : iv.length = 16) (hc : c.length = 16)
    (hD : (D c).length = 16)
    (hDlt : (D c).getD (16 - k) 0 < 256)
    (hpin : ∀ j, 16 - k < j → j < 16 →
      Nat.xor ((D c).getD j 0) (iv.getD j 0) = k) :
    findFirstValid (mkDecOracle D) iv c (16 - k) =
        some (Nat.xor ((D c).getD (16 - k) 0) k) ∧
    (atkRound (mkDecOracle D) c k iv recovered).2 =
      recovered.set (16 - k) ((D c).getD (16 - k) 0) ∧
    (atkRound (mkDecOracle D) c k iv recovered).1 =
      (iv.set (16 - k) (Nat.xor ((D c).getD (16 - k) 0) k)).mapIdx
        (fun j v => if 16 - k ≤ j then Nat.xor v (Nat.xor k (k + 1)) else v) := by
  have hbstar : Nat.xor ((D c).getD (16 - k) 0) k < 256 := by
    have h256 : (256 : Nat) = 2 ^ 8 := by norm_num
    rw [h256] at hDlt ⊢
    exact Nat.xor_lt_two_pow hDlt (by omega)
  have hvalid : ∀ b, validatePadding (mkDecOracle D (iv.set (16 - k) b ++ c)) =
      true ↔ b = Nat.xor ((D c).getD (16 - k) 0) k := by
    intro b
    rw [validRound_iff D iv c k b hk2 hk16 hiv hc hD hpin]
    constructor
    · exact fun h => xor_left_cancel _ _ _ h
    · rintro rfl
      exact xor_xor_self _ _
  have hfind : findFirstValid (mkDecOracle D) iv c (16 - k) =
      some (Nat.xor ((D c).getD (16 - k) 0) k) := by
    rw [findFirstValid]
    apply find?_range_eq_some hbstar
    · exact (hvalid _).mpr rfl
    · intro j hj
      rcases Bool.eq_false_or_eq_true
        (validatePadding (mkDecOracle D (iv.set (16 - k) j ++ c))) with h | h
      · exact absurd ((hvalid j).mp h) (by omega)
      · exact h
  refine ⟨hfind, ?_, ?_⟩
  · simp only [atkRound, blkSize_eq, hfind]
    rw [xor_cancel]
  · simp only [atkRound, blkSize_eq, hfind]

theorem xor_chain (d k m : Nat) :
    Nat.xor d (Nat.xor (Nat.xor d k) (Nat.xor k m)) = m := by
  show d ^^^ ((d ^^^ k) ^^^ (k ^^^ m)) = m
  calc d ^^^ ((d ^^^ k) ^^^ (k ^^^ m))
      = (d ^^^ (d ^^^ k)) ^^^ (k ^^^ m) := (Nat.xor_assoc _ _ _).symm
    _ = k ^^^ (k ^^^ m) := by
        rw [show d ^^^ (d ^^^ k) = k from xor_xor_self d k]
    _ = m := xor_xor_self k m

theorem xor_chain2 (a b k m : Nat) (h : Nat.xor a b = k) :
    Nat.xor a (Nat.xor b (Nat.xor k m)) = m := by
  show a ^^^ (b ^^^ (k ^^^ m)) = m
  rw [← Nat.xor_assoc, show a ^^^ b = k from h]
  exact xor_xor_self k m

theorem getD_mapIdx (l : List Nat) (f : Nat → Nat → Nat) (j : Nat)
    (hj : j < l.length) :
    (l.mapIdx f).getD j 0 = f j (l.getD j 0) := by
  rw [List.getD_eq_getElem _ 0 (by simpa using hj), List.getElem_mapIdx,
    List.getD_eq_getElem _ 0 hj]

theorem list_eq_of_getD (l1 l2 : List Nat) (h1 : l1.length = 16)
    (h2 : l2.length = 16) (h : ∀ j, j < 16 → l1.getD j 0 = l2.getD j 0) :
    l1 = l2 := by
  apply List.ext_getElem (by omega)
  intro i hi1 hi2
  have hg := h i (by omega)
  rwa [List.getD_eq_getElem l1 0 hi1, List.getD_eq_getElem l2 0 hi2] at hg

/-- Rounds k through 16 of the brute force, assuming the invariant that all
already solved IV positions decrypt to k and the recovered block already
matches the block decryption there: all positions get solved correctly. -/
theorem atkRoundsFrom_correct (D : List Nat → List Nat) (c : List Nat)
    (hc : c.length = 16) (hD : (D c).length = 16)
    (hDlt : ∀ j, j < 16 → (D c).getD j 0 < 256) :
    ∀ (fuelN : Nat) (k : Nat) (iv recovered : List Nat),
      2 ≤ k → k + fuelN = 17 →
      iv.length = 16 → recovered.length = 16 →
      (∀ j, 17 - k ≤ j → j < 16 →
        Nat.xor ((D c).getD j 0) (iv.getD j 0) = k) →
      (∀ j, 17 - k ≤ j → j < 16 →
        recovered.getD j 0 = (D c).getD j 0) →
      (atkRounds (mkDecOracle D) c fuelN k iv recovered).length = 16 ∧
      ∀ j, j < 16 →
        (atkRounds (mkDecOracle D) c fuelN k iv recovered).getD j 0 =
          (D c).getD j 0 := by
  intro fuelN
  induction fuelN with
  | zero =>
    intro k iv recovered hk2 hk17 hiv hrlen hpin hrec
    have hk : k = 17 := by omega
    subst hk
    exact ⟨hrlen, fun j hj => hrec j (by omega) hj⟩
  | succ m ih =>
    intro k iv recovered hk2 hk17 hiv hrlen hpin hrec
    have hk16 : k ≤ 16 := by omega
    have hpin2 : ∀ j, 16 - k < j → j < 16 →
        Nat.xor ((D c).getD j 0) (iv.getD j 0) = k := by
      intro j hj1 hj2
      exact hpin j (by omega) hj2
    obtain ⟨hfind, hrec2, hiv2⟩ :=
      atkRound_ge2 D iv recovered c k hk2 hk16 hiv hc hD
        (hDlt _ (by omega)) hpin2
    rw [atkRounds, hiv2, hrec2]
    refine ih (k + 1) _ _ (by omega) (by omega) ?_ ?_ ?_ ?_
    · simp [hiv]
    · simp [hrlen]
    · intro j hj1 hj2
      have hjlen : j <
          (iv.set (16 - k) (Nat.xor ((D c).getD (16 - k) 0) k)).length := by
        simp [hiv]
        omega
      rw [getD_mapIdx _ _ j hjlen, if_pos (by omega : 16 - k ≤ j)]
      by_cases hjg : j = 16 - k
      · subst hjg
        rw [getD_set_self iv _ _ (by rw [hiv]; omega)]
        exact xor_chain _ k (k + 1)
      · rw [getD_set_ne iv _ j _ (fun h => hjg h.symm)]
        exact xor_chain2 _ _ k (k + 1) (hpin2 j (by omega) hj2)
    · intro j hj1 hj2
      by_cases hjg : j = 16 - k
      · subst hjg
        rw [getD_set_self recovered _ _ (by rw [hrlen]; omega)]
      · rw [getD_set_ne recovered _ j _ (fun h => hjg h.symm)]
        exact hrec j (by omega) hj2

/-- The first round of the brute force, conditioned on the first
padding-valid byte being the one that decrypts the last byte to 01. -/
theorem atkRound_1 (D : List Nat → List Nat) (iv recovered c : List Nat)
    (hfirst : findFirstValid (mkDecOracle D) iv c 15 =
      some (Nat.xor ((D c).getD 15 0) 1)) :
    (atkRound (mkDecOracle D) c 1 iv recovered).2 =
      recovered.set 15 ((D c).getD 15 0) ∧
    (atkRound (mkDecOracle D) c 1 iv recovered).1 =
      (iv.set 15 (Nat.xor ((D c).getD 15 0) 1)).mapIdx
        (fun j v => if 15 ≤ j then Nat.xor v (Nat.xor 1 (1 + 1)) else v) := by
  constructor
  · simp only [atkRound, blkSize_eq, show (16 : Nat) - 1 = 15 from rfl, hfirst]
    rw [xor_cancel]
  · simp only [atkRound, blkSize_eq, show (16 : Nat) - 1 = 15 from rfl, hfirst]

/-- Full correctness of paddingOracleAtkBlk under the one condition the code
does not enforce: in the very first round, the first padding-valid byte is
the one that makes the last plain-text byte equal 01 (no false accept from a
longer padding). Then the attack recovers exactly the block decryption of
the cipher-text block. -/
theorem paddingOracleAtkBlk_correct (D : List Nat → List Nat) (c : List Nat)
    (hc : c.length = 16) (hD : (D c).length = 16)
    (hDlt : ∀ j, j < 16 → (D c).getD j 0 < 256)
    (hfirst : findFirstValid (mkDecOracle D) (List.replicate 16 0) c 15 =
      some (Nat.xor ((D c).getD 15 0) 1)) :
    paddingOracleAtkBlk (List.replicate 16 0) c (mkDecOracle D) = D c := by
  have h16 : (16 : Nat) = 15 + 1 := rfl
  rw [paddingOracleAtkBlk, blkSize_eq, h16, atkRounds]
  obtain ⟨hr1, hi1⟩ :=
    atkRound_1 D (List.replicate 16 0) (List.replicate 16 0) c hfirst
  rw [hi1, hr1]
  have hpin1 : ∀ j, 17 - 2 ≤ j → j < 16 →
      Nat.xor ((D c).getD j 0)
        ((((List.replicate 16 0).set 15
            (Nat.xor ((D c).getD 15 0) 1)).mapIdx
          (fun j v =>
            if 15 ≤ j then Nat.xor v (Nat.xor 1 (1 + 1)) else v)).getD j 0) =
        2 := by
    intro j hj1 hj2
    have hj15 : j = 15 := by omega
    subst hj15
    rw [getD_mapIdx _ _ 15 (by simp), if_pos (by omega : 15 ≤ 15),
      getD_set_self _ _ _ (by simp)]
    exact xor_chain _ 1 (1 + 1)
  have hrec1 : ∀ j, 17 - 2 ≤ j → j < 16 →
      ((List.replicate 16 0).set 15 ((D c).getD 15 0)).getD j 0 =
        (D c).getD j 0 := by
    intro j hj1 hj2
    have hj15 : j = 15 := by omega
    subst hj15
    rw [getD_set_self _ _ _ (by simp)]
  obtain ⟨hlen, hget⟩ := atkRoundsFrom_correct D c hc hD hDlt 15 2 _ _
    (by omega) (by omega) (by simp) (by simp) hpin1 hrec1
  exact list_eq_of_getD _ _ hlen hD hget

end CbcRound

section CbcChain

theorem zipWith_xor_cancel : ∀ (a b : List Nat), a.length = b.length →
    List.zipWith Nat.xor a (List.zipWith Nat.xor a b) = b := by
  intro a
  induction a with
  | nil =>
    intro b hb
    have : b = [] := List.length_eq_zero.mp (by simpa using hb.symm)
    subst this
    rfl
  | cons x xs ih =>
    intro b hb
    cases b with
    | nil => simp at hb
    | cons y ys =>
      show Nat.xor x (Nat.xor x y) ::
          List.zipWith Nat.xor xs (List.zipWith Nat.xor xs ys) = y :: ys
      rw [xor_xor_self, ih ys (by simpa using hb)]

theorem mem_zipWith_xor_lt (a b : List Nat) (ha : ∀ x ∈ a, x < 256)
    (hb : ∀ x ∈ b, x < 256) :
    ∀ x ∈ List.zipWith Nat.xor a b, x < 256 := by
  intro x hx
  obtain ⟨i, hi, rfl⟩ := List.mem_iff_getElem.mp hx
  have hia : i < a.length := by
    simp only [List.length_zipWith] at hi
    omega
  have hib : i < b.length := by
    simp only [List.length_zipWith] at hi
    omega
  rw [List.getElem_zipWith]
  have h256 : (256 : Nat) = 2 ^ 8 := by norm_num
  rw [h256]
  refine Nat.xor_lt_two_pow ?_ ?_
  · rw [← h256]
    exact ha _ (List.mem_iff_getElem.mpr ⟨i, hia, rfl⟩)
  · rw [← h256]
    exact hb _ (List.mem_iff_getElem.mpr ⟨i, hib, rfl⟩)

theorem chunksOf_append16 (a b : List Nat) (ha : a.length = 16) :
    chunksOf (a ++ b) 16 = a :: chunksOf b 16 := by
  have hne : a ++ b ≠ [] := by
    intro h
    have h2 := congrArg List.length h
    simp [ha] at h2
  rw [chunksOf_cons _ _ hne (by decide)]
  congr 1
  · rw [← ha, List.take_left]
  · rw [← ha, List.drop_left]

theorem chunksOf_props : ∀ (N : Nat) (data : List Nat), data.length ≤ N →
    data.length % 16 = 0 →
    ∀ p ∈ chunksOf data 16, p.length = 16 ∧ ∀ x ∈ p, x ∈ data := by
  intro N
  induction N with
  | zero =>
    intro data hN _ p hp
    have hdata : data = [] := List.length_eq_zero.mp (by omega)
    subst hdata
    rw [chunksOf_nil] at hp
    cases hp
  | succ n ih =>
    intro data hN hmod p hp
    by_cases hd : data = []
    · subst hd
      rw [chunksOf_nil] at hp
      cases hp
    · rw [chunksOf_cons data 16 hd (by decide)] at hp
      have hlen16 : 16 ≤ data.length := by
        have h0 : data.length ≠ 0 := by simpa using hd
        omega
      rcases List.mem_cons.mp hp with rfl | hp2
      · refine ⟨by simp [List.length_take]; omega, ?_⟩
        exact fun x hx => List.take_subset 16 data hx
      · have hdr : (data.drop 16).length ≤ n := by
          simp only [List.length_drop]
          omega
        have hdm : (data.drop 16).length % 16 = 0 := by
          simp only [List.length_drop]
          omega
        obtain ⟨h1, h2⟩ := ih (data.drop 16) hdr hdm p hp2
        exact ⟨h1, fun x hx => List.drop_subset 16 data (h2 x hx)⟩

/-- Inversion of one step of the CBC encryption loop. -/
theorem cbcEncLoop_cons_inv (E : List Nat → List Nat) (p : List Nat)
    (ps : List (List Nat)) (prev ct : List Nat)
    (hlen : prev.length = p.length)
    (h : cbcEncLoop E (p :: ps) prev = some ct) :
    ∃ rest, cbcEncLoop E ps (E (List.zipWith Nat.xor prev p)) = some rest ∧
      ct = E (List.zipWith Nat.xor prev p) ++ rest := by
  simp only [cbcEncLoop] at h
  rw [show xorBlocks prev p = some (List.zipWith Nat.xor prev p) from by
    rw [xorBlocks, if_neg (by simp [hlen])]] at h
  have h2 : (match cbcEncLoop E ps (E (List.zipWith Nat.xor prev p)) with
      | none => none
      | some rest => some (E (List.zipWith Nat.xor prev p) ++ rest)) =
      some ct := h
  cases hrest : cbcEncLoop E ps (E (List.zipWith Nat.xor prev p)) with
  | none =>
    rw [hrest] at h2
    cases h2
  | some rest =>
    rw [hrest] at h2
    injection h2 with h2
    exact ⟨rest, rfl, h2.symm⟩

theorem cbcEncLoop_length (E : List Nat → List Nat)
    (HElen : ∀ b, b.length = 16 → (E b).length = 16) :
    ∀ (pblocks : List (List Nat)) (prev ct : List Nat),
      (∀ p ∈ pblocks, p.length = 16) → prev.length = 16 →
      cbcEncLoop E pblocks prev = some ct →
      ct.length = 16 * pblocks.length := by
  intro pblocks
  induction pblocks with
  | nil =>
    intro prev ct _ _ h
    simp only [cbcEncLoop] at h
    injection h with h
    subst h
    simp
  | cons p ps ih =>
    intro prev ct hall hprev h
    obtain ⟨rest, hrest, rfl⟩ := cbcEncLoop_cons_inv E p ps prev ct
      (by rw [hprev, hall p (by simp)]) h
    have hx : (List.zipWith Nat.xor prev p).length = 16 := by
      simp [List.length_zipWith, hprev, hall p (by simp)]
    have hE : (E (List.zipWith Nat.xor prev p)).length = 16 := HElen _ hx
    have hrl := ih (E (List.zipWith Nat.xor prev p)) rest
      (fun q hq => hall q (by simp [hq])) hE hrest
    rw [List.length_append, hE, hrl, List.length_cons]
    omega

theorem getD_lt_of_mem_lt (l : List Nat) (h : ∀ x ∈ l, x < 256) (j : Nat)
    (hj : j < l.length) : l.getD j 0 < 256 := by
  rw [List.getD_eq_getElem l 0 hj]
  exact h _ (List.mem_iff_getElem.mpr ⟨j, hj, rfl⟩)

/-- The attack consumes the cipher-text blocks produced by the CBC
encryption loop and reproduces exactly the plain-text blocks, provided the
padLen = 1 ambiguity never triggers on any block. -/
theorem cbcRoundTrip (E D : List Nat → List Nat)
    (HElen : ∀ b, b.length = 16 → (E b).length = 16)
    (HDE : ∀ b, b.length = 16 → D (E b) = b)
    (HEbytes : ∀ b, b.length = 16 → (∀ x ∈ b, x < 256) → ∀ x ∈ E b, x < 256) :
    ∀ (pblocks : List (List Nat)) (prev acc ct : List Nat),
      (∀ p ∈ pblocks, p.length = 16 ∧ ∀ x ∈ p, x < 256) →
      prev.length = 16 → (∀ x ∈ prev, x < 256) →
      cbcEncLoop E pblocks prev = some ct →
      (∀ cblk ∈ chunksOf ct 16,
        findFirstValid (mkDecOracle D) (List.replicate 16 0) cblk 15 =
          some (Nat.xor ((D cblk).getD 15 0) 1)) →
      cbcAtkBlocks (mkDecOracle D) (chunksOf ct 16) prev acc =
        some (acc ++ pblocks.flatten) := by
  intro pblocks
  induction pblocks with
  | nil =>
    intro prev acc ct _ _ _ h _
    simp only [cbcEncLoop] at h
    injection h with h
    subst h
    rw [chunksOf_nil]
    simp [cbcAtkBlocks]
  | cons p ps ih =>
    intro prev acc ct hall hprev hprevb h hfirst
    have hp := hall p (by simp)
    obtain ⟨rest, hrest, rfl⟩ := cbcEncLoop_cons_inv E p ps prev ct
      (by rw [hprev, hp.1]) h
    have hxlen : (List.zipWith Nat.xor prev p).length = 16 := by
      simp [hprev, hp.1]
    have hxbytes : ∀ y ∈ List.zipWith Nat.xor prev p, y < 256 :=
      mem_zipWith_xor_lt prev p hprevb hp.2
    have hcElen : (E (List.zipWith Nat.xor prev p)).length = 16 := HElen _ hxlen
    have hcEbytes := HEbytes _ hxlen hxbytes
    have hDc : D (E (List.zipWith Nat.xor prev p)) =
        List.zipWith Nat.xor prev p := HDE _ hxlen
    rw [chunksOf_append16 _ rest hcElen] at hfirst ⊢
    have hpad : paddingOracleAtkBlk (List.replicate 16 0)
        (E (List.zipWith Nat.xor prev p)) (mkDecOracle D) =
        D (E (List.zipWith Nat.xor prev p)) :=
      paddingOracleAtkBlk_correct D _ hcElen (by rw [hDc]; exact hxlen)
        (fun j hj => by
          rw [hDc]
          exact getD_lt_of_mem_lt _ hxbytes j (by rw [hxlen]; exact hj))
        (hfirst _ (by simp))
    simp only [cbcAtkBlocks]
    rw [show xorBlocks prev (paddingOracleAtkBlk (List.replicate blkSize 0)
        (E (List.zipWith Nat.xor prev p)) (mkDecOracle D)) = some p from by
      rw [blkSize_eq, hpad, hDc, xorBlocks,
        if_neg (by rw [hprev, hxlen]; simp)]
      rw [zipWith_xor_cancel prev p (by rw [hprev, hp.1])]]
    show cbcAtkBlocks (mkDecOracle D) (chunksOf rest 16)
        (E (List.zipWith Nat.xor prev p)) (acc ++ p) =
      some (acc ++ (p :: ps).flatten)
    rw [List.flatten_cons, ← List.append_assoc]
    exact ih (E (List.zipWith Nat.xor prev p)) (acc ++ p) rest
      (fun q hq => hall q (by simp [hq])) hcElen hcEbytes hrest
      (fun cblk hc => hfirst cblk (by simp [hc]))

theorem pkcs7_len16 (pt : List Nat) :
    (pkcs7 pt 16).length = pt.length + (16 - pt.length % 16) := by
  simp [pkcs7]

theorem pkcs7_bytes (pt : List Nat) (h : ∀ x ∈ pt, x < 256) :
    ∀ x ∈ pkcs7 pt 16, x < 256 := by
  intro x hx
  rcases List.mem_append.mp hx with h1 | h2
  · exact h x h1
  · have hx2 := List.eq_of_mem_replicate h2
    omega

theorem getLastD_append_replicate (a : List Nat) (p : Nat) (hp : 1 ≤ p) :
    (a ++ List.replicate p p).getLastD 0 = p := by
  rw [List.getLastD_eq_getLast?, List.getLast?_append]
  have h : (List.replicate p p).getLast? = some p := by
    cases p with
    | zero => omega
    | succ k =>
      rw [List.getLast?_replicate]
      simp
  rw [h]
  rfl

theorem removePKCS7_pkcs7 (pt : List Nat) :
    removePKCS7 (pkcs7 pt 16) = some pt := by
  have hplen := pkcs7_len16 pt
  have hmod : pt.length % 16 < 16 := Nat.mod_lt _ (by omega)
  have hlast : (pkcs7 pt 16).getLastD 0 = 16 - pt.length % 16 :=
    getLastD_append_replicate pt _ (by omega)
  rw [removePKCS7, if_neg (by rw [hplen]; omega), hlast,
    if_neg (by omega), if_neg (by rw [hplen]; omega)]
  have hdrop : (pkcs7 pt 16).drop
      ((pkcs7 pt 16).length - (16 - pt.length % 16)) =
      List.replicate (16 - pt.length % 16) (16 - pt.length % 16) := by
    rw [hplen, show pt.length + (16 - pt.length % 16) -
      (16 - pt.length % 16) = pt.length from by omega, pkcs7]
    exact List.drop_left pt _
  rw [hdrop, if_pos (by
    rw [List.all_eq_true]
    intro x hx
    have hx2 := List.eq_of_mem_replicate hx
    simp [hx2])]
  congr 1
  rw [hplen, show pt.length + (16 - pt.length % 16) -
    (16 - pt.length % 16) = pt.length from by omega, pkcs7,
    List.take_left]

theorem flatten_chunksOf : ∀ (N : Nat) (data : List Nat), data.length ≤ N →
    (chunksOf data 16).flatten = data := by
  intro N
  induction N with
  | zero =>
    intro data hN
    have hdata : data = [] := List.length_eq_zero.mp (by omega)
    subst hdata
    rw [chunksOf_nil]
    rfl
  | succ n ih =>
    intro data hN
    by_cases hd : data = []
    · subst hd
      rw [chunksOf_nil]
      rfl
    · rw [chunksOf_cons data 16 hd (by decide), List.flatten_cons]
      have hlen : data.length ≠ 0 := by simpa using hd
      rw [ih (data.drop 16) (by simp only [List.length_drop]; omega)]
      exact List.take_append_drop 16 data

/-- In the attack setting cpaes.encryptCBC is the CBC block loop run on all
blocks of the padded plain text, the IV as the initial previous block; the
Go code just unrolls the first iteration (xoring in the other argument
order). -/
theorem encryptCBC_as_loop (E : List Nat → List Nat) (iv pt ct : List Nat)
    (hiv : iv.length = 16)
    (h : encryptCBC E iv pt = some ct) :
    cbcEncLoop E (chunksOf (pkcs7 pt 16) 16) iv = some ct := by
  rw [encryptCBC, if_neg (by simp [hiv, blkSize_eq]), blkSize_eq] at h
  have hpne : pkcs7 pt 16 ≠ [] := by
    intro hh
    have h2 := congrArg List.length hh
    rw [pkcs7_len16] at h2
    simp at h2
    omega
  have hpadmod : (pkcs7 pt 16).length % 16 = 0 := by
    rw [pkcs7_len16]
    have := Nat.mod_lt pt.length (show 0 < 16 by omega)
    omega
  cases hch : chunksOf (pkcs7 pt 16) 16 with
  | nil =>
    rw [chunksOf_cons _ _ hpne (by decide)] at hch
    simp at hch
  | cons p0 ps =>
    rw [hch] at h
    have h2 : (match xorBlocks p0 iv with
        | none => none
        | some x0 =>
          match cbcEncLoop E ps (E x0) with
          | none => none
          | some rest => some (E x0 ++ rest)) = some ct := h
    have hp0 : p0.length = 16 := by
      have hm := chunksOf_props (pkcs7 pt 16).length (pkcs7 pt 16)
        (Nat.le_refl _) hpadmod p0 (by rw [hch]; simp)
      exact hm.1
    rw [show xorBlocks p0 iv = some (List.zipWith Nat.xor p0 iv) from by
      rw [xorBlocks, if_neg (by simp [hp0, hiv])]] at h2
    have h3 : (match cbcEncLoop E ps (E (List.zipWith Nat.xor p0 iv)) with
        | none => none
        | some rest =>
          some (E (List.zipWith Nat.xor p0 iv) ++ rest)) = some ct := h2
    simp only [cbcEncLoop]
    rw [show xorBlocks iv p0 = some (List.zipWith Nat.xor iv p0) from by
      rw [xorBlocks, if_neg (by simp [hp0, hiv])]]
    rw [show List.zipWith Nat.xor iv p0 = List.zipWith Nat.xor p0 iv from
      List.zipWith_comm_of_comm _ (fun a b => Nat.xor_comm a b) iv p0]
    exact h3

end CbcChain

/-- C1 (amended): for every hidden plain text, block cipher and IV such
that on each cipher-text block the very first padding-valid byte at pad
length 1 is the one that decrypts the last byte to 01 (the padLen = 1
ambiguity never triggers), cbcPaddingOracleAtk recovers each block's
intermediate decryption, xors it with the true previous cipher-text block
(the true IV for the first), and the concatenation equals the full padded
plain text; stripping the PKCS7 padding yields the hidden plain text byte
for byte. The counterexample shows the unconditional claim fails. -/
theorem cbcPaddingOracleAtk_spec (E D : List Nat → List Nat)
    (encOracle : List Nat → List Nat) (iv pt ct : List Nat)
    (HElen : ∀ b, b.length = 16 → (E b).length = 16)
    (HDE : ∀ b, b.length = 16 → D (E b) = b)
    (HEbytes : ∀ b, b.length = 16 → (∀ x ∈ b, x < 256) → ∀ x ∈ E b, x < 256)
    (hiv : iv.length = 16) (hivb : ∀ x ∈ iv, x < 256)
    (hptb : ∀ x ∈ pt, x < 256)
    (hct : encryptCBC E iv pt = some ct)
    (hencO : encOracle [] = ct)
    (hfirst : ∀ cblk ∈ chunksOf ct 16,
      findFirstValid (mkDecOracle D) (List.replicate 16 0) cblk 15 =
        some (Nat.xor ((D cblk).getD 15 0) 1)) :
    cbcPaddingOracleAtk encOracle (mkDecOracle D) iv = some (pkcs7 pt 16) ∧
    removePKCS7 (pkcs7 pt 16) = some pt := by
  refine ⟨?_, removePKCS7_pkcs7 pt⟩
  rw [cbcPaddingOracleAtk, hencO]
  have hloop := encryptCBC_as_loop E iv pt ct hiv hct
  have hpadmod : (pkcs7 pt 16).length % 16 = 0 := by
    rw [pkcs7_len16]
    have := Nat.mod_lt pt.length (show 0 < 16 by omega)
    omega
  have hpblocks : ∀ p ∈ chunksOf (pkcs7 pt 16) 16,
      p.length = 16 ∧ ∀ x ∈ p, x < 256 := by
    intro p hp
    obtain ⟨h1, h2⟩ := chunksOf_props (pkcs7 pt 16).length _ (Nat.le_refl _)
      hpadmod p hp
    exact ⟨h1, fun x hx => pkcs7_bytes pt hptb x (h2 x hx)⟩
  have hctlen : ct.length = 16 * (chunksOf (pkcs7 pt 16) 16).length :=
    cbcEncLoop_length E HElen _ iv ct (fun p hp => (hpblocks p hp).1) hiv hloop
  have hchne : chunksOf (pkcs7 pt 16) 16 ≠ [] := by
    have hpne : pkcs7 pt 16 ≠ [] := by
      intro hh
      have h2 := congrArg List.length hh
      rw [pkcs7_len16] at h2
      simp at h2
      omega
    rw [chunksOf_cons _ _ hpne (by decide)]
    simp
  have hctmod : ct.length % 16 = 0 := by
    rw [hctlen]
    omega
  have hctne : ct.length ≠ 0 := by
    rw [hctlen]
    have h2 : (chunksOf (pkcs7 pt 16) 16).length ≠ 0 := by simpa using hchne
    omega
  rw [toChunksE, blkSize_eq, if_neg (by simpa using hctne),
    if_neg (by decide), if_neg (by simpa using hctmod)]
  show cbcAtkBlocks (mkDecOracle D) (chunksOf ct 16) iv [] =
    some (pkcs7 pt 16)
  have hrt := cbcRoundTrip E D HElen HDE HEbytes
    (chunksOf (pkcs7 pt 16) 16) iv [] ct hpblocks hiv hivb hloop hfirst
  calc cbcAtkBlocks (mkDecOracle D) (chunksOf ct 16) iv []
      = some ([] ++ (chunksOf (pkcs7 pt 16) 16).flatten) := hrt
    _ = some (pkcs7 pt 16) := by
        rw [List.nil_append,
          flatten_chunksOf (pkcs7 pt 16).length _ (Nat.le_refl _)]

/-- Witness for cbcPaddingOracleAtk_spec: the identity block cipher, the
all-zero IV and the plain text [1, ..., 16], whose cipher text triggers no
padLen = 1 ambiguity. -/
theorem cbcPaddingOracleAtk_spec_witness :
    cbcPaddingOracleAtk
        (fun _ => [1, 2, 3, 4, 5, 6, 7, 8, 9, 10, 11, 12, 13, 14, 15, 16,
          17, 18, 19, 20, 21, 22, 23, 24, 25, 26, 27, 28, 29, 30, 31, 0])
        (mkDecOracle id) (List.replicate 16 0) =
      some (pkcs7 [1, 2, 3, 4, 5, 6, 7, 8, 9, 10, 11, 12, 13, 14, 15, 16] 16) ∧
    removePKCS7 (pkcs7 [1, 2, 3, 4, 5, 6, 7, 8, 9, 10, 11, 12, 13, 14, 15, 16] 16) =
      some [1, 2, 3, 4, 5, 6, 7, 8, 9, 10, 11, 12, 13, 14, 15, 16] :=
  cbcPaddingOracleAtk_spec id id
    (fun _ => [1, 2, 3, 4, 5, 6, 7, 8, 9, 10, 11, 12, 13, 14, 15, 16,
      17, 18, 19, 20, 21, 22, 23, 24, 25, 26, 27, 28, 29, 30, 31, 0])
    (List.replicate 16 0) [1, 2, 3, 4, 5, 6, 7, 8, 9, 10, 11, 12, 13, 14, 15, 16]
    [1, 2, 3, 4, 5, 6, 7, 8, 9, 10, 11, 12, 13, 14, 15, 16,
      17, 18, 19, 20, 21, 22, 23, 24, 25, 26, 27, 28, 29, 30, 31, 0]
    (fun b hb => hb) (fun b _ => rfl) (fun b _ hx => hx)
    (by decide) (by decide) (by decide) (by decide) rfl (by decide)

theorem atkRounds_preserve_15 (decOracle : List Nat → List Nat)
    (c : List Nat) :
    ∀ (fuelN padBytes : Nat) (iv recovered : List Nat), 2 ≤ padBytes →
      (atkRounds decOracle c fuelN padBytes iv recovered).getD 15 0 =
        recovered.getD 15 0 := by
  intro fuelN
  induction fuelN with
  | zero =>
    intro padBytes iv recovered _
    rfl
  | succ m ih =>
    intro padBytes iv recovered h2
    rw [atkRounds, ih (padBytes + 1) _ _ (by omega)]
    simp only [atkRound, blkSize_eq]
    cases hf : findFirstValid decOracle iv c (16 - padBytes) with
    | none => rfl
    | some b => exact getD_set_ne recovered _ 15 _ (by omega)

/-- C1 counterexample: the hidden plain text is the decoded first candidate
of the challenge list ("000000Now that the party is jumping"), the block
cipher is the identity map, and the IV bytes 14 and 15 are chosen so that
the first block of its genuine CBC cipher text has an intermediate
decryption ending in 02 03. On that block, the padLen = 1 brute force
accepts the trailing 02 02 padding (trial byte 1) before the correct trial
byte 2, so paddingOracleAtkBlk records 1 xor 1 = 0 as the last intermediate
byte, and no later round revisits it; the true last intermediate byte is 3,
hence the recovered block is not the intermediate decryption block and the
attack does not return the padded plain text. -/
theorem cbcPaddingOracleAtk_padLen1_failure :
    encryptCBC id ((List.replicate 16 0).set 14 34 |>.set 15 119)
        [48, 48, 48, 48, 48, 48, 78, 111, 119, 32, 116, 104, 97, 116, 32, 116,
          104, 101, 32, 112, 97, 114, 116, 121, 32, 105, 115, 32, 106, 117,
          109, 112, 105, 110, 103] =
      some ([48, 48, 48, 48, 48, 48, 78, 111, 119, 32, 116, 104, 97, 116, 2, 3] ++
        [88, 85, 16, 64, 81, 66, 58, 22, 87, 73, 7, 72, 11, 1, 111, 115,
          49, 59, 119, 77, 92, 79, 55, 27, 90, 68, 10, 69, 6, 12, 98, 126]) ∧
    (paddingOracleAtkBlk (List.replicate 16 0)
        [48, 48, 48, 48, 48, 48, 78, 111, 119, 32, 116, 104, 97, 116, 2, 3]
        (mkDecOracle id)).getD 15 0 = 0 ∧
    (id [48, 48, 48, 48, 48, 48, 78, 111, 119, 32, 116, 104, 97, 116, 2, 3] :
      List Nat).getD 15 0 = 3 ∧
    (0 : Nat) ≠ 3 := by
  refine ⟨by decide, ?_, by decide, by decide⟩
  have hfind : findFirstValid (mkDecOracle id) (List.replicate 16 0)
      [48, 48, 48, 48, 48, 48, 78, 111, 119, 32, 116, 104, 97, 116, 2, 3] 15 =
      some 1 := by decide
  rw [paddingOracleAtkBlk, blkSize_eq, show (16 : Nat) = 15 + 1 from rfl,
    atkRounds, atkRounds_preserve_15 _ _ 15 2 _ _ (Nat.le_refl 2)]
  simp only [atkRound, blkSize_eq, show (16 : Nat) - 1 = 15 from rfl, hfind]
  decide

section WrapperOracle

theorem pkcs7_append_left (A B : List Nat) (hA : A.length % 16 = 0) :
    pkcs7 (A ++ B) 16 = A ++ pkcs7 B 16 := by
  rw [pkcs7, pkcs7, List.length_append]
  have hm : (A.length + B.length) % 16 = B.length % 16 := by omega
  rw [hm, List.append_assoc]

theorem chunksOf_split : ∀ (N : Nat) (A B : List Nat), A.length ≤ N →
    A.length % 16 = 0 →
    chunksOf (A ++ B) 16 = chunksOf A 16 ++ chunksOf B 16 := by
  intro N
  induction N with
  | zero =>
    intro A B hN _
    have hA : A = [] := List.length_eq_zero.mp (by omega)
    subst hA
    simp [chunksOf_nil]
  | succ n ih =>
    intro A B hN hmod
    by_cases hA : A = []
    · subst hA
      simp [chunksOf_nil]
    · have hlen : A.length ≠ 0 := by simpa using hA
      have h16 : 16 ≤ A.length := by omega
      rw [chunksOf_cons A 16 hA (by decide),
        chunksOf_cons (A ++ B) 16 (by simp [hA]) (by decide),
        List.take_append_of_le_length h16, List.drop_append_of_le_length h16,
        List.cons_append]
      congr 1
      exact ih (A.drop 16) B (by simp only [List.length_drop]; omega)
        (by simp only [List.length_drop]; omega)

theorem ecbFlatten_drop (E : List Nat → List Nat)
    (HElen : ∀ b, b.length = 16 → (E b).length = 16) :
    ∀ (N : Nat) (A : List Nat) (rest : List (List Nat)), A.length ≤ N →
      A.length % 16 = 0 →
      (((chunksOf A 16 ++ rest).map E).flatten).drop A.length =
        (rest.map E).flatten := by
  intro N
  induction N with
  | zero =>
    intro A rest hN _
    have hA : A = [] := List.length_eq_zero.mp (by omega)
    subst hA
    rw [chunksOf_nil]
    rfl
  | succ n ih =>
    intro A rest hN hmod
    by_cases hA : A = []
    · subst hA
      rw [chunksOf_nil]
      rfl
    · have hlen : A.length ≠ 0 := by simpa using hA
      have h16 : 16 ≤ A.length := by omega
      have hEt : (E (A.take 16)).length = 16 :=
        HElen _ (by simp [List.length_take]; omega)
      rw [chunksOf_cons A 16 hA (by decide), List.cons_append, List.map_cons,
        List.flatten_cons,
        show A.length = (E (A.take 16)).length + (A.length - 16) from by
          rw [hEt]; omega,
        List.drop_append]
      have hih := ih (A.drop 16) rest (by simp only [List.length_drop]; omega)
        (by simp only [List.length_drop]; omega)
      rwa [List.length_drop] at hih

end WrapperOracle

section ByteAtTime

theorem pkcs7_mod16 (pt : List Nat) : (pkcs7 pt 16).length % 16 = 0 := by
  rw [pkcs7_len16]
  have := Nat.mod_lt pt.length (show 0 < 16 by omega)
  omega

theorem flatten_map_chunks_length (E : List Nat → List Nat)
    (HElen : ∀ b, b.length = 16 → (E b).length = 16) :
    ∀ (N : Nat) (data : List Nat), data.length ≤ N → data.length % 16 = 0 →
      (((chunksOf data 16).map E).flatten).length = data.length := by
  intro N
  induction N with
  | zero =>
    intro data hN _
    have hdata : data = [] := List.length_eq_zero.mp (by omega)
    subst hdata
    rw [chunksOf_nil]
    rfl
  | succ n ih =>
    intro data hN hmod
    by_cases hd : data = []
    · subst hd
      rw [chunksOf_nil]
      rfl
    · have hlen : data.length ≠ 0 := by simpa using hd
      have h16 : 16 ≤ data.length := by omega
      rw [chunksOf_cons data 16 hd (by decide), List.map_cons,
        List.flatten_cons, List.length_append,
        HElen _ (by simp [List.length_take]; omega),
        ih (data.drop 16) (by simp only [List.length_drop]; omega)
          (by simp only [List.length_drop]; omega),
        List.length_drop]
      omega

theorem ecbEncrypt_length (E : List Nat → List Nat)
    (HElen : ∀ b, b.length = 16 → (E b).length = 16) (pt : List Nat) :
    (ecbEncrypt E pt).length = pt.length + (16 - pt.length % 16) := by
  rw [ecbEncrypt, blkSize_eq,
    flatten_map_chunks_length E HElen (pkcs7 pt 16).length _ (Nat.le_refl _)
      (pkcs7_mod16 pt), pkcs7_len16]

theorem oracleWithSecret_length (E : List Nat → List Nat)
    (HElen : ∀ b, b.length = 16 → (E b).length = 16) (secret x : List Nat) :
    (oracleWithSecret E secret x).length =
      x.length + secret.length +
        (16 - (x.length + secret.length) % 16) := by
  rw [oracleWithSecret, ecbEncrypt_length E HElen, List.length_append]

theorem findSizeLoop_spec (O : List Nat → List Nat) (cipherLen istar : Nat)
    (hno : ∀ j, 1 ≤ j → j < istar →
      (O (List.replicate j 0)).length = cipherLen)
    (hyes : (O (List.replicate istar 0)).length = cipherLen + 16) :
    ∀ (fuel i : Nat), 1 ≤ i → i ≤ istar → istar - i < fuel →
      findSizeLoop O cipherLen fuel i = some (16, cipherLen - istar) := by
  intro fuel
  induction fuel with
  | zero =>
    intro i _ _ h3
    omega
  | succ n ih =>
    intro i h1 h2 h3
    by_cases hi : i = istar
    · subst hi
      simp only [findSizeLoop]
      rw [hyes, if_pos (by omega),
        show cipherLen + 16 - cipherLen = 16 from by omega]
    · have hlt : i < istar := by omega
      simp only [findSizeLoop]
      rw [hno i h1 hlt, if_neg (by omega)]
      exact ih (i + 1) (by omega) (by omega) (by omega)

theorem findECBBlockSizeAndSuffixLength_spec (E : List Nat → List Nat)
    (HElen : ∀ b, b.length = 16 → (E b).length = 16) (secret : List Nat)
    (fuel : Nat) (hfuel : 16 ≤ fuel) :
    findECBBlockSizeAndSuffixLength (oracleWithSecret E secret) fuel =
      some (16, secret.length) := by
  have hmlt := Nat.mod_lt secret.length (show 0 < 16 by omega)
  have hlen0 : ((oracleWithSecret E secret) []).length =
      secret.length + (16 - secret.length % 16) := by
    rw [oracleWithSecret_length E HElen]
    simp
  rw [findECBBlockSizeAndSuffixLength, hlen0]
  have hres := findSizeLoop_spec (oracleWithSecret E secret)
    (secret.length + (16 - secret.length % 16)) (16 - secret.length % 16)
    (fun j h1 h2 => by
      rw [oracleWithSecret_length E HElen, List.length_replicate]
      omega)
    (by
      rw [oracleWithSecret_length E HElen, List.length_replicate]
      omega)
    fuel 1 (Nat.le_refl 1) (by omega) (by omega)
  rw [hres, show secret.length + (16 - secret.length % 16) -
    (16 - secret.length % 16) = secret.length from by omega]

theorem detectECB_oracle (E : List Nat → List Nat)
    (HElen : ∀ b, b.length = 16 → (E b).length = 16) (secret : List Nat) :
    detectECB ((oracleWithSecret E secret) (List.replicate (16 * 2) 0)) =
      true := by
  have hsplit : List.replicate (16 * 2) (0 : Nat) =
      List.replicate 16 0 ++ List.replicate 16 0 := by decide
  have hpadeq : pkcs7 (List.replicate (16 * 2) 0 ++ secret) 16 =
      List.replicate 16 0 ++ (List.replicate 16 0 ++ pkcs7 secret 16) := by
    rw [hsplit, List.append_assoc, pkcs7_append_left _ _ (by simp),
      pkcs7_append_left _ _ (by simp)]
  rw [oracleWithSecret, ecbEncrypt, blkSize_eq, hpadeq,
    chunksOf_append16 _ _ (by simp), chunksOf_append16 _ _ (by simp),
    List.map_cons, List.map_cons, List.flatten_cons, List.flatten_cons]
  have hEz : (E (List.replicate 16 0)).length = 16 := HElen _ (by simp)
  have hrest : (((chunksOf (pkcs7 secret 16) 16).map E).flatten).length =
      (pkcs7 secret 16).length :=
    flatten_map_chunks_length E HElen _ _ (Nat.le_refl _) (pkcs7_mod16 secret)
  rw [detectECB, blkSize_eq, if_neg (by
    simp only [List.length_append, hEz, hrest, ne_eq, Decidable.not_not]
    have := pkcs7_mod16 secret
    omega)]
  rw [chunksOf_append16 _ _ hEz, chunksOf_append16 _ _ hEz,
    hasDupBlk_nil_iff]
  intro hnd
  exact (List.nodup_cons.mp hnd).1 (by simp)

theorem ecb_block_at (E : List Nat → List Nat)
    (HElen : ∀ b, b.length = 16 → (E b).length = 16) :
    ∀ (B : Nat) (data : List Nat),
      data.length % 16 = 0 → 16 * (B + 1) ≤ data.length →
      (((chunksOf data 16).map E).flatten.drop (16 * B)).take 16 =
        E ((data.drop (16 * B)).take 16) := by
  intro B
  induction B with
  | zero =>
    intro data hmod hlen
    have hd : data ≠ [] := by
      intro h
      subst h
      simp at hlen
    rw [chunksOf_cons data 16 hd (by decide), List.map_cons,
      List.flatten_cons, Nat.mul_zero, List.drop_zero, List.drop_zero]
    have hEl : (E (data.take 16)).length = 16 :=
      HElen _ (by simp [List.length_take]; omega)
    rw [List.take_append_of_le_length (by rw [hEl])]
    exact List.take_of_length_le (le_of_eq hEl)
  | succ b ih =>
    intro data hmod hlen
    have hd : data ≠ [] := by
      intro h
      subst h
      simp at hlen
    rw [chunksOf_cons data 16 hd (by decide), List.map_cons,
      List.flatten_cons]
    have h16 : 16 ≤ data.length := by omega
    have hEl : (E (data.take 16)).length = 16 :=
      HElen _ (by simp [List.length_take]; omega)
    rw [show (16 : Nat) * (b + 1) = (E (data.take 16)).length + 16 * b from by
        rw [hEl]; omega,
      List.drop_append,
      show (data.drop ((E (data.take 16)).length + 16 * b)).take 16 =
        ((data.drop 16).drop (16 * b)).take 16 from by
        rw [List.drop_drop, hEl],
      ih (data.drop 16) (by simp only [List.length_drop]; omega)
        (by simp only [List.length_drop]; omega)]

theorem slice_append_left (A B : List Nat) (a k : Nat)
    (h : a + k ≤ A.length) :
    ((A ++ B).drop a).take k = (A.drop a).take k := by
  rw [List.drop_append_of_le_length (by omega),
    List.take_append_of_le_length (by simp only [List.length_drop]; omega)]

theorem blkDict_getD (sz : Nat) (hsz : sz < 16) :
    (makeBlockDict 16).getD sz [] = List.replicate sz 0 := by
  rw [List.getD_eq_getElem _ _ (by simp [makeBlockDict]; exact hsz)]
  simp [makeBlockDict]

theorem cache_getD (F : List Nat → List Nat) (sz : Nat) (hsz : sz < 16) :
    ((makeBlockDict 16).map F).getD sz [] = F (List.replicate sz 0) := by
  rw [List.getD_eq_getElem _ _ (by simp [makeBlockDict]; exact hsz)]
  simp [makeBlockDict]

/-- One byte-at-a-time step: at step t, with the filler of length
15 - t % 16 and the t already recovered bytes, the guess loop returns
exactly byte t of the secret (which is below 255). -/
theorem guessStep (E : List Nat → List Nat) (secret : List Nat)
    (HElen : ∀ b, b.length = 16 → (E b).length = 16)
    (HEinj : ∀ a b, a.length = 16 → b.length = 16 → E a = E b → a = b)
    (hsb : ∀ x ∈ secret, x < 255) (t : Nat) (ht : t < secret.length) :
    guessByte (oracleWithSecret E secret)
      (List.replicate (15 - t % 16) 0 ++ secret.take t)
      ((((oracleWithSecret E secret)
          (List.replicate (15 - t % 16) 0)).drop (t / 16 * blkSize)).take
        blkSize)
      (t / 16) = some (secret.getD t 0) := by
  set sz := 15 - t % 16 with hsz
  set B := t / 16 with hB
  have hszlt : sz < 16 := by omega
  have hkey : sz + t = 16 * B + 15 := by omega
  have hforgedlen :
      (List.replicate sz (0 : Nat) ++ secret.take t).length = 16 * B + 15 := by
    simp only [List.length_append, List.length_replicate, List.length_take]
    omega
  have hOz : (oracleWithSecret E secret) (List.replicate sz 0) =
      ((chunksOf (pkcs7 (List.replicate sz 0 ++ secret) 16) 16).map
        E).flatten := by
    rw [oracleWithSecret, ecbEncrypt, blkSize_eq]
  have hblk : 16 * (B + 1) ≤
      (pkcs7 (List.replicate sz 0 ++ secret) 16).length := by
    rw [pkcs7_len16]
    simp only [List.length_append, List.length_replicate]
    omega
  have htarget : (((oracleWithSecret E secret)
      (List.replicate sz 0)).drop (B * blkSize)).take blkSize =
      E ((List.replicate sz 0 ++ secret.take t).drop (16 * B) ++
        [secret.getD t 0]) := by
    rw [blkSize_eq, hOz, Nat.mul_comm B 16,
      ecb_block_at E HElen B _ (pkcs7_mod16 _) hblk]
    congr 1
    rw [pkcs7, slice_append_left _ _ (16 * B) 16
      (by simp only [List.length_append, List.length_replicate]; omega)]
    rw [show ((List.replicate sz (0 : Nat) ++ secret).drop (16 * B)).take 16 =
        ((List.replicate sz (0 : Nat) ++ secret).take (16 * B + 16)).drop
          (16 * B) from by
      rw [List.drop_take]
      congr 1
      omega]
    rw [List.take_append_eq_append_take,
      List.take_of_length_le (by simp only [List.length_replicate]; omega),
      show 16 * B + 16 - (List.replicate sz (0 : Nat)).length = t + 1 from by
        simp only [List.length_replicate]
        omega]
    rw [show secret.take (t + 1) = secret.take t ++ [secret.getD t 0] from by
      rw [List.take_succ, List.getElem?_eq_getElem ht,
        List.getD_eq_getElem secret 0 ht]
      rfl]
    rw [show List.replicate sz (0 : Nat) ++
        (secret.take t ++ [secret.getD t 0]) =
        (List.replicate sz (0 : Nat) ++ secret.take t) ++
          [secret.getD t 0] from (List.append_assoc _ _ _).symm]
    rw [List.drop_append_of_le_length (by rw [hforgedlen]; omega)]
  have hguess : ∀ g : Nat, (((oracleWithSecret E secret)
      ((List.replicate sz 0 ++ secret.take t) ++ [g])).drop (B * 16)).take 16 =
      E ((List.replicate sz 0 ++ secret.take t).drop (16 * B) ++ [g]) := by
    intro g
    have hFlen : ((List.replicate sz (0 : Nat) ++ secret.take t) ++
        [g]).length = 16 * (B + 1) := by
      simp only [List.length_append, hforgedlen, List.length_cons,
        List.length_nil]
      omega
    rw [oracleWithSecret, ecbEncrypt, blkSize_eq, Nat.mul_comm B 16,
      ecb_block_at E HElen B _ (pkcs7_mod16 _) (by
        rw [pkcs7_len16]
        simp only [List.length_append, hFlen]
        omega)]
    congr 1
    rw [pkcs7, slice_append_left _ _ (16 * B) 16
      (by simp only [List.length_append, hFlen]; omega)]
    rw [slice_append_left _ _ (16 * B) 16 (by rw [hFlen]; omega)]
    rw [List.drop_append_of_le_length (by rw [hforgedlen]; omega)]
    exact List.take_of_length_le (by
      simp only [List.length_append, List.length_drop, hforgedlen,
        List.length_cons, List.length_nil]
      omega)
  have hdflen : ((List.replicate sz (0 : Nat) ++
      secret.take t).drop (16 * B)).length = 15 := by
    rw [List.length_drop, hforgedlen]
    omega
  have hstlt : secret.getD t 0 < 255 := by
    rw [List.getD_eq_getElem secret 0 ht]
    exact hsb _ (List.mem_iff_getElem.mpr ⟨t, ht, rfl⟩)
  have hpred : ∀ g : Nat,
      E ((List.replicate sz 0 ++ secret.take t).drop (16 * B) ++ [g]) =
        E ((List.replicate sz 0 ++ secret.take t).drop (16 * B) ++
          [secret.getD t 0]) → g = secret.getD t 0 := by
    intro g h
    have h2 := HEinj _ _
      (by simp only [List.length_append, hdflen, List.length_cons,
        List.length_nil])
      (by simp only [List.length_append, hdflen, List.length_cons,
        List.length_nil]) h
    have h3 := List.append_cancel_left h2
    simpa using h3
  rw [guessByte, htarget]
  have hElen16 : (E ((List.replicate sz 0 ++ secret.take t).drop (16 * B) ++
      [secret.getD t 0])).length = 16 :=
    HElen _ (by simp only [List.length_append, hdflen, List.length_cons,
      List.length_nil])
  rw [hElen16]
  apply find?_range_eq_some hstlt
  · show ((((oracleWithSecret E secret)
      ((List.replicate sz 0 ++ secret.take t) ++
        [secret.getD t 0])).drop (B * 16)).take 16 ==
      E ((List.replicate sz 0 ++ secret.take t).drop (16 * B) ++
        [secret.getD t 0])) = true
    rw [hguess (secret.getD t 0)]
    simp
  · intro j hj
    show ((((oracleWithSecret E secret)
      ((List.replicate sz 0 ++ secret.take t) ++ [j])).drop (B * 16)).take 16 ==
      E ((List.replicate sz 0 ++ secret.take t).drop (16 * B) ++
        [secret.getD t 0])) = false
    rw [hguess j, beq_eq_false_iff_ne]
    intro h
    exact absurd (hpred j h) (by omega)

theorem pairs_eq (N : Nat) :
    (List.range N).flatMap (fun b => (List.range 16).reverse.map
      (fun s => (b, s))) =
    (List.range (16 * N)).map (fun t => (t / 16, 15 - t % 16)) := by
  induction N with
  | zero => rfl
  | succ n ih =>
    rw [List.range_succ, List.flatMap_append, ih, List.flatMap_cons,
      List.flatMap_nil, List.append_nil,
      show 16 * (n + 1) = 16 * n + 16 from by ring,
      List.range_add, List.map_append, List.map_map]
    congr 1
    have h : ∀ i ∈ List.range 16,
        ((fun t => (t / 16, 15 - t % 16)) ∘ (fun i => 16 * n + i)) i =
          (fun i => ((n : Nat), 15 - i)) i := by
      intro i hi
      have hi16 := List.mem_range.mp hi
      simp only [Function.comp_apply]
      rw [show (16 * n + i) / 16 = n from by omega,
        show (16 * n + i) % 16 = i from by omega]
    rw [List.map_congr_left h]
    rfl

theorem byteAtTimeLoop_cons (O : List Nat → List Nat)
    (D C : List (List Nat)) (L B sz : Nat) (rest : List (Nat × Nat))
    (sec : List Nat) :
    byteAtTimeLoop O D C L ((B, sz) :: rest) sec =
      match guessByte O (D.getD sz [] ++ sec)
          (((C.getD sz []).drop (B * blkSize)).take blkSize) B with
      | none => none
      | some g => if sec.length + 1 = L then some (sec ++ [g])
          else byteAtTimeLoop O D C L rest (sec ++ [g]) := rfl

/-- The recovery loop of cpaes.byteAtTimeAtk, started at step t on the
already-recovered first t secret bytes, returns the whole secret provided
its bytes stay below 255 and the remaining pair list is long enough. -/
theorem byteAtTimeLoop_correct (E : List Nat → List Nat) (secret : List Nat)
    (HElen : ∀ b, b.length = 16 → (E b).length = 16)
    (HEinj : ∀ a b, a.length = 16 → b.length = 16 → E a = E b → a = b)
    (hsb : ∀ x ∈ secret, x < 255) :
    ∀ m t, t < secret.length → secret.length ≤ t + m →
    byteAtTimeLoop (oracleWithSecret E secret) (makeBlockDict 16)
      ((makeBlockDict 16).map (oracleWithSecret E secret)) secret.length
      ((List.range' t m).map (fun u => (u / 16, 15 - u % 16)))
      (secret.take t) = some secret := by
  intro m
  induction m with
  | zero => intro t h1 h2; omega
  | succ m ih =>
    intro t h1 h2
    rw [List.range'_succ t m 1, List.map_cons, byteAtTimeLoop_cons,
      blkDict_getD (15 - t % 16) (by omega),
      cache_getD (oracleWithSecret E secret) (15 - t % 16) (by omega),
      guessStep E secret HElen HEinj hsb t h1]
    show (if (secret.take t).length + 1 = secret.length
        then some (secret.take t ++ [secret.getD t 0])
        else byteAtTimeLoop (oracleWithSecret E secret) (makeBlockDict 16)
          ((makeBlockDict 16).map (oracleWithSecret E secret)) secret.length
          ((List.range' (t + 1) m).map (fun u => (u / 16, 15 - u % 16)))
          (secret.take t ++ [secret.getD t 0])) = some secret
    rw [List.length_take, Nat.min_eq_left (Nat.le_of_lt h1)]
    have htake : secret.take (t + 1) = secret.take t ++ [secret.getD t 0] := by
      rw [List.take_succ, List.getElem?_eq_getElem h1,
        List.getD_eq_getElem secret 0 h1]
      rfl
    by_cases hc : t + 1 = secret.length
    · rw [if_pos hc, ← htake, hc, List.take_length]
    · rw [if_neg hc, ← htake]
      exact ih (t + 1) (by omega) (by omega)

end ByteAtTime

/-- C3 (amended): for every injective, length-preserving 16-byte block map,
every nonempty secret all of whose bytes are below 255 (the range the guess
loop actually covers), and enough probing fuel, byteAtTimeAtk on the
zero-length-prefix secret oracle returns exactly the secret: secretLen bytes,
byte-for-byte, stopping at that count and never decoding padding bytes. -/
theorem byteAtTimeAtk_spec (E : List Nat → List Nat)
    (HElen : ∀ b, b.length = 16 → (E b).length = 16)
    (HEinj : ∀ a b, a.length = 16 → b.length = 16 → E a = E b → a = b)
    (secret : List Nat) (hsb : ∀ x ∈ secret, x < 255) (hne : secret ≠ [])
    (fuel : Nat) (hfuel : 16 ≤ fuel) :
    byteAtTimeAtk (oracleWithSecret E secret) fuel = some secret := by
  have hd := detectECB_oracle E HElen secret
  simp only [byteAtTimeAtk,
    findECBBlockSizeAndSuffixLength_spec E HElen secret fuel hfuel, hd,
    blkSize_eq, ne_eq, not_true_eq_false, if_false, Bool.not_true,
    Bool.false_eq_true, if_true]
  rw [pairs_eq, List.range_eq_range',
    show ([] : List Nat) = secret.take 0 from (List.take_zero secret).symm]
  exact byteAtTimeLoop_correct E secret HElen HEinj hsb
    (16 * ((secret.length + 16 - 1) / 16)) 0
    (List.length_pos.mpr hne) (by omega)

theorem byteAtTimeAtk_spec_witness :
    byteAtTimeAtk (oracleWithSecret (fun x => x) [7]) 16 = some [7] :=
  byteAtTimeAtk_spec (fun x => x) (fun _ h => h) (fun _ _ _ _ h => h)
    [7] (by decide) (by decide) 16 (by decide)

set_option maxRecDepth 100000 in
/-- C3 counterexample: the guess loop only tries bytes 0-254, so a secret
containing byte 255 defeats the extractor: on the identity block map with
the single-byte secret 0xFF, byteAtTimeAtk panics (none) instead of
returning the secret. -/
theorem byteAtTimeAtk_byte255_failure :
    byteAtTimeAtk (oracleWithSecret (fun x => x) [255]) 16 = none := by
  decide

theorem find?_range'_eq_some {p : Nat → Bool} {s n m : Nat} (h1 : s ≤ m)
    (h2 : m < s + n) (hpm : p m = true)
    (hlt : ∀ j, s ≤ j → j < m → p j = false) :
    (List.range' s n).find? p = some m := by
  have e1 := List.range'_append s (m - s) (n - (m - s)) 1
  simp only [Nat.one_mul] at e1
  rw [show s + (m - s) = m from by omega,
    show n - (m - s) + (m - s) = n from by omega] at e1
  obtain ⟨t, ht⟩ : ∃ t, n - (m - s) = t + 1 := ⟨n - (m - s) - 1, by omega⟩
  have e4 : List.range' m (n - (m - s)) = m :: List.range' (m + 1) t := by
    rw [ht, List.range'_succ]
  rw [← e1, List.find?_append]
  have h3 : List.find? p (List.range' s (m - s)) = none :=
    List.find?_eq_none.mpr (fun x hx => by
      have hx2 := List.mem_range'_1.mp hx
      rw [hlt x hx2.1 (by omega)]
      simp)
  rw [h3, Option.none_or, e4, List.find?_cons_of_pos _ hpm]

theorem innerScan_eq_some (ct : List Nat) (m : Nat) (h1 : 1 ≤ m)
    (h2 : m < ct.length / 16)
    (hpm : (ct.drop ((m - 1) * 16)).take 16 = (ct.drop (m * 16)).take 16)
    (hlt : ∀ j, 1 ≤ j → j < m →
      (ct.drop ((j - 1) * 16)).take 16 ≠ (ct.drop (j * 16)).take 16) :
    innerScan ct = some m := by
  simp only [innerScan, blkSize_eq]
  apply find?_range'_eq_some h1 (by omega)
  · exact beq_iff_eq.mpr hpm
  · intro j hj1 hj2
    exact beq_eq_false_iff_ne.mpr (hlt j hj1 hj2)

theorem findPrefixLenLoop_succ (O : List Nat → List Nat) (n f : Nat) :
    findPrefixLenLoop O (n + 1) f =
      match innerScan (O (List.replicate f 0)) with
      | some blkIdx =>
        some ((blkIdx - 1) * blkSize - (f - blkSize * 2))
      | none => findPrefixLenLoop O n (f + 1) := rfl

/-- The outer loop of cpaes.findPrefixLen: if no consecutive duplicate
blocks appear for fill amounts below fstar and the scan at fstar reports
index m, the loop returns the Go back-computation at (m, fstar). -/
theorem findPrefixLenLoop_spec (O : List Nat → List Nat) (fstar m : Nat)
    (hearly : ∀ f, 32 ≤ f → f < fstar →
      innerScan (O (List.replicate f 0)) = none)
    (hstar : innerScan (O (List.replicate fstar 0)) = some m) :
    ∀ fuel f, 32 ≤ f → f ≤ fstar → fstar - f < fuel →
      findPrefixLenLoop O fuel f =
        some ((m - 1) * blkSize - (fstar - blkSize * 2)) := by
  intro fuel
  induction fuel with
  | zero => intro f hf1 hf2 hf3; omega
  | succ n ih =>
    intro f hf1 hf2 hf3
    by_cases hf : f = fstar
    · subst hf
      rw [findPrefixLenLoop_succ, hstar]
    · rw [findPrefixLenLoop_succ, hearly f hf1 (by omega)]
      exact ih (f + 1) (by omega) (by omega) (by omega)

/-- Any 16-byte block of the padded plain text that lies inside the zero
filler region consists of zero bytes only. -/
theorem fill_block_zero (pfx secret : List Nat) (f i : Nat)
    (h1 : pfx.length ≤ 16 * i) (h2 : 16 * (i + 1) ≤ pfx.length + f) :
    ((pkcs7 ((pfx ++ List.replicate f 0) ++ secret) 16).drop
      (16 * i)).take 16 = List.replicate 16 0 := by
  rw [pkcs7]
  rw [slice_append_left _ _ (16 * i) 16 (by
    simp only [List.length_append, List.length_replicate]
    omega)]
  rw [slice_append_left _ _ (16 * i) 16 (by
    simp only [List.length_append, List.length_replicate]
    omega)]
  rw [show 16 * i = pfx.length + (16 * i - pfx.length) from by omega,
    List.drop_append, List.drop_replicate, List.take_replicate]
  congr 1
  omega

/-- C6 (amended): for every length-preserving block map, prefix and secret
such that the growing zero filler produces no consecutive duplicate
cipher-text blocks before the aligning fill amount
fstar = 32 + (16 - prefixLen mod 16) mod 16, and at fstar no consecutive
duplicate occurs among the block pairs covering the prefix, findPrefixLen
returns exactly the prefix length, back-computed from the first duplicate
index as (duplicateBlockIndex - 1) * blkSize minus the filler bytes that
complete the last prefix block. -/
theorem findPrefixLen_spec (E : List Nat → List Nat)
    (HElen : ∀ b, b.length = 16 → (E b).length = 16)
    (pfx secret : List Nat) (fuel : Nat)
    (hfuel : (16 - pfx.length % 16) % 16 < fuel)
    (hearly : ∀ f, f < 32 + (16 - pfx.length % 16) % 16 → 32 ≤ f →
      innerScan (oracleWithPfx E pfx secret (List.replicate f 0)) = none)
    (hfirst : ∀ j,
      j ≤ (pfx.length + (16 - pfx.length % 16) % 16) / 16 → 1 ≤ j →
      ((oracleWithPfx E pfx secret (List.replicate
          (32 + (16 - pfx.length % 16) % 16) 0)).drop
        ((j - 1) * 16)).take 16 ≠
      ((oracleWithPfx E pfx secret (List.replicate
          (32 + (16 - pfx.length % 16) % 16) 0)).drop
        (j * 16)).take 16) :
    findPrefixLen (oracleWithPfx E pfx secret) fuel = some pfx.length := by
  have hlen : (oracleWithPfx E pfx secret (List.replicate
      (32 + (16 - pfx.length % 16) % 16) 0)).length =
      pfx.length + (32 + (16 - pfx.length % 16) % 16) + secret.length +
        (16 - (pfx.length + (32 + (16 - pfx.length % 16) % 16) +
          secret.length) % 16) := by
    rw [oracleWithPfx, oracleWithSecret_length E HElen]
    simp only [List.length_append, List.length_replicate]
  have hblkE : ∀ i, pfx.length ≤ 16 * i →
      16 * (i + 1) ≤ pfx.length + (32 + (16 - pfx.length % 16) % 16) →
      ((oracleWithPfx E pfx secret (List.replicate
          (32 + (16 - pfx.length % 16) % 16) 0)).drop
        (16 * i)).take 16 = E (List.replicate 16 0) := by
    intro i hi1 hi2
    rw [oracleWithPfx, oracleWithSecret, ecbEncrypt, blkSize_eq,
      ecb_block_at E HElen i _ (pkcs7_mod16 _) (by
        rw [pkcs7_len16]
        simp only [List.length_append, List.length_replicate]
        omega),
      fill_block_zero pfx secret (32 + (16 - pfx.length % 16) % 16) i hi1
        (by omega)]
  have hnb : (pfx.length + (16 - pfx.length % 16) % 16) / 16 + 1 <
      (oracleWithPfx E pfx secret (List.replicate
        (32 + (16 - pfx.length % 16) % 16) 0)).length / 16 := by
    rw [hlen]
    omega
  have hdup :
      ((oracleWithPfx E pfx secret (List.replicate
          (32 + (16 - pfx.length % 16) % 16) 0)).drop
        (((pfx.length + (16 - pfx.length % 16) % 16) / 16 + 1 - 1) *
          16)).take 16 =
      ((oracleWithPfx E pfx secret (List.replicate
          (32 + (16 - pfx.length % 16) % 16) 0)).drop
        (((pfx.length + (16 - pfx.length % 16) % 16) / 16 + 1) *
          16)).take 16 := by
    rw [show ((pfx.length + (16 - pfx.length % 16) % 16) / 16 + 1 - 1) * 16 =
        16 * ((pfx.length + (16 - pfx.length % 16) % 16) / 16) from by omega,
      show ((pfx.length + (16 - pfx.length % 16) % 16) / 16 + 1) * 16 =
        16 * ((pfx.length + (16 - pfx.length % 16) % 16) / 16 + 1) from by
          omega,
      hblkE ((pfx.length + (16 - pfx.length % 16) % 16) / 16)
        (by omega) (by omega),
      hblkE ((pfx.length + (16 - pfx.length % 16) % 16) / 16 + 1)
        (by omega) (by omega)]
  have hscan : innerScan (oracleWithPfx E pfx secret (List.replicate
      (32 + (16 - pfx.length % 16) % 16) 0)) =
      some ((pfx.length + (16 - pfx.length % 16) % 16) / 16 + 1) :=
    innerScan_eq_some _ _ (by omega) hnb hdup
      (fun j hj1 hj2 => hfirst j (by omega) hj1)
  have hstep := findPrefixLenLoop_spec (oracleWithPfx E pfx secret)
    (32 + (16 - pfx.length % 16) % 16)
    ((pfx.length + (16 - pfx.length % 16) % 16) / 16 + 1)
    (fun f hf1 hf2 => hearly f hf2 hf1) hscan fuel (blkSize * 2)
    (by decide)
    (by
      have h32 : blkSize * 2 = 32 := rfl
      omega)
    (by
      have h32 : blkSize * 2 = 32 := rfl
      omega)
  rw [findPrefixLen, hstep]
  congr 1
  rw [blkSize_eq]
  omega

set_option maxRecDepth 100000 in
theorem findPrefixLen_spec_witness :
    findPrefixLen (oracleWithPfx (fun x => x) [1] [7]) 16 = some 1 :=
  findPrefixLen_spec (fun x => x) (fun _ h => h) [1] [7] 16 (by decide)
    (by decide) (by decide)

set_option maxRecDepth 100000 in
/-- C6 counterexample: a one-byte prefix consisting of the zero byte 0x00
merges with the zero filler, the consecutive duplicate pair appears one
block early, and findPrefixLen reports prefix length 0 although the true
prefix length is 1. -/
theorem findPrefixLen_zero_tail_failure :
    findPrefixLen (oracleWithPfx (fun x => x) [0] [7]) 16 = some 0 ∧
      ([(0 : Nat)] : List Nat).length = 1 := by
  constructor
  · decide
  · rfl

/-- C7: for every prefix length and attacker input, the wrapper oracle of
byteAtTimeAtkWithPrefix inserts exactly enough zero filler for
(prefix, filler) to end on a block boundary and strips those leading blocks
from the oracle output, so it coincides with the no-prefix secret oracle
under the same cipher and secret, reducing the attack to the prefix-free
case. -/
theorem wrapperOracle_spec (E : List Nat → List Nat) (pfx secret x : List Nat)
    (HElen : ∀ b, b.length = 16 → (E b).length = 16) :
    wrapperOracle (oracleWithPfx E pfx secret) pfx.length x =
      oracleWithSecret E secret x := by
  rw [wrapperOracle, oracleWithPfx, oracleWithSecret, oracleWithSecret,
    ecbEncrypt, ecbEncrypt, blkSize_eq]
  have hassoc :
      (pfx ++ (List.replicate (16 - pfx.length % 16) 0 ++ x)) ++ secret =
      (pfx ++ List.replicate (16 - pfx.length % 16) 0) ++ (x ++ secret) := by
    simp [List.append_assoc]
  rw [hassoc]
  have hAlen : (pfx ++ List.replicate (16 - pfx.length % 16) 0).length =
      pfx.length + (16 - pfx.length % 16) := by simp
  have hAmod :
      (pfx ++ List.replicate (16 - pfx.length % 16) 0).length % 16 = 0 := by
    rw [hAlen]
    have := Nat.mod_lt pfx.length (show 0 < 16 by omega)
    omega
  rw [pkcs7_append_left _ _ hAmod,
    chunksOf_split (pfx ++ List.replicate (16 - pfx.length % 16) 0).length _ _
      (Nat.le_refl _) hAmod,
    show pfx.length + (16 - pfx.length % 16) =
      (pfx ++ List.replicate (16 - pfx.length % 16) 0).length from hAlen.symm]
  exact ecbFlatten_drop E HElen
    (pfx ++ List.replicate (16 - pfx.length % 16) 0).length _ _
    (Nat.le_refl _) hAmod

/-- Witness for wrapperOracle_spec: the identity cipher, prefix [5],
secret [7] and attacker input [9]. -/
theorem wrapperOracle_spec_witness :
    wrapperOracle (oracleWithPfx id [5] [7]) [5].length [9] =
      oracleWithSecret id [7] [9] :=
  wrapperOracle_spec id [5] [7] [9] (fun b hb => hb)

/-- C4 (amended): at pad lengths padLen ≥ 2, once the already solved IV
positions are pinned so that they decrypt to padLen, the first byte the
decryption oracle reports padding-valid makes the decrypted block's final
padLen bytes all equal padLen, and the recorded byte triedByte xor padLen is
the true intermediate decryption byte. At padLen = 1 however a longer valid
padding (such as a trailing 02 02) can be accepted first and record a wrong
byte, as the counterexample shows. -/
theorem paddingOracleRound_spec (D : List Nat → List Nat)
    (iv recovered c : List Nat) (k : Nat) (hk2 : 2 ≤ k) (hk16 : k ≤ 16)
    (hiv : iv.length = 16) (hc : c.length = 16) (hD : (D c).length = 16)
    (hDlt : (D c).getD (16 - k) 0 < 256)
    (hpin : ∀ j, 16 - k < j → j < 16 →
      Nat.xor ((D c).getD j 0) (iv.getD j 0) = k) :
    findFirstValid (mkDecOracle D) iv c (16 - k) =
        some (Nat.xor ((D c).getD (16 - k) 0) k) ∧
    (∀ j, 16 - k ≤ j → j < 16 →
      (mkDecOracle D
        (iv.set (16 - k) (Nat.xor ((D c).getD (16 - k) 0) k) ++ c)).getD j 0 =
        k) ∧
    (atkRound (mkDecOracle D) c k iv recovered).2 =
      recovered.set (16 - k) ((D c).getD (16 - k) 0) := by
  obtain ⟨h1, h2, _⟩ :=
    atkRound_ge2 D iv recovered c k hk2 hk16 hiv hc hD hDlt hpin
  refine ⟨h1, ?_, h2⟩
  intro j hj1 hj2
  rw [mkDecOracle_single D _ c (by rw [blkSize_eq]; simp [hiv])
    (by rw [blkSize_eq]; exact hc) (by rw [blkSize_eq]; exact hD)]
  rw [getD_zipWith_xor _ _ (by rw [blkSize_eq]; exact hD)
    (by rw [blkSize_eq]; simp [hiv]) j (by rw [blkSize_eq]; exact hj2)]
  by_cases hjg : j = 16 - k
  · subst hjg
    rw [getD_set_self iv _ _ (by rw [hiv]; omega)]
    exact xor_xor_self _ k
  · rw [getD_set_ne iv _ j _ (fun h => hjg h.symm)]
    exact hpin j (by omega) hj2

/-- Witness for paddingOracleRound_spec at pad length 2, the constant
all-zero block cipher, and the working IV pinned at its last byte. -/
theorem paddingOracleRound_spec_witness :
    findFirstValid (mkDecOracle (fun _ => List.replicate 16 0))
        ((List.replicate 16 0).set 15 2) (List.replicate 16 5) (16 - 2) =
      some 2 ∧
    (mkDecOracle (fun _ => List.replicate 16 0)
      (((List.replicate 16 0).set 15 2).set (16 - 2) 2 ++
        List.replicate 16 5)).getD 15 0 = 2 ∧
    (mkDecOracle (fun _ => List.replicate 16 0)
      (((List.replicate 16 0).set 15 2).set (16 - 2) 2 ++
        List.replicate 16 5)).getD 14 0 = 2 ∧
    (atkRound (mkDecOracle (fun _ => List.replicate 16 0))
        (List.replicate 16 5) 2 ((List.replicate 16 0).set 15 2)
        (List.replicate 16 0)).2 =
      (List.replicate 16 0).set (16 - 2) 0 :=
  have H := paddingOracleRound_spec (fun _ => List.replicate 16 0)
    ((List.replicate 16 0).set 15 2) (List.replicate 16 0)
    (List.replicate 16 5) 2 (by decide) (by decide) (by decide) (by decide)
    (by decide) (by decide)
    (fun j hj1 hj2 => by
      have hj : j = 15 := by omega
      subst hj
      decide)
  ⟨H.1, H.2.1 15 (by decide) (by decide), H.2.1 14 (by decide) (by decide),
    H.2.2⟩

/-- C5 counterexample: a decryption oracle for which no byte value ever
yields valid padding (it always returns an all-zero block, whose padding is
invalid since the last byte is 0). The IV brute force of paddingOracleAtkBlk
then finds no valid byte in any round, yet the attack returns the ordinary
all-zero default block instead of reporting any failure value. -/
theorem paddingOracleAtkBlk_no_failure_value :
    (∀ b, b < 256 →
      validatePadding ((fun _ => List.replicate blkSize 0)
        ((List.replicate blkSize 0).set 15 b ++ List.replicate blkSize 7)) =
        false) ∧
    paddingOracleAtkBlk (List.replicate blkSize 0) (List.replicate blkSize 7)
        (fun _ => List.replicate blkSize 0) =
      List.replicate blkSize 0 := by
  set_option maxRecDepth 100000 in decide

/-- C5 amended: when no trial byte matches, guessByte does abort with the
distinct failure result none (the Go panic) and never continues; but when no
byte value yields valid padding during the CBC IV brute force, the rounds
loop of paddingOracleAtkBlk silently returns its recovered block unchanged
(the zero default) and reports no failure to the caller. -/
theorem attackNoMatch_spec :
    (∀ (oracle : List Nat → List Nat) (forged targetBlk : List Nat)
        (blkIdx : Nat),
      (∀ g, ((oracle (forged ++ [g])).drop (blkIdx * targetBlk.length)).take
          targetBlk.length ≠ targetBlk) →
      guessByte oracle forged targetBlk blkIdx = none) ∧
    (∀ (decOracle : List Nat → List Nat) (c : List Nat)
        (fuelN padBytes : Nat) (iv recovered : List Nat),
      (∀ s, validatePadding (decOracle s) = false) →
      atkRounds decOracle c fuelN padBytes iv recovered = recovered) := by
  constructor
  · intro oracle forged targetBlk blkIdx h
    rw [guessByte, List.find?_eq_none]
    intro g _
    simp only [beq_iff_eq]
    exact fun hc => h g hc
  · intro decOracle c fuelN
    induction fuelN with
    | zero => intro padBytes iv recovered _; rfl
    | succ k ih =>
      intro padBytes iv recovered h
      have hnone : findFirstValid decOracle iv c (blkSize - padBytes) = none := by
        rw [findFirstValid, List.find?_eq_none]
        intro b _
        simp [h]
      simp only [atkRounds, atkRound, hnone]
      exact ih (padBytes + 1) _ _ h

/-- Witness for attackNoMatch_spec: a constant empty oracle for the guess
loop and the all-zero-block oracle for the rounds loop. -/
theorem attackNoMatch_spec_witness :
    guessByte (fun _ => []) [] [1] 0 = none ∧
    atkRounds (fun _ => List.replicate blkSize 0) [] blkSize 1 [] [] = [] :=
  ⟨attackNoMatch_spec.1 (fun _ => []) [] [1] 0
      (fun g => by
        show List.take [1].length (List.drop (0 * [1].length) []) ≠ [1]
        decide),
    attackNoMatch_spec.2 (fun _ => List.replicate blkSize 0) [] blkSize 1 [] []
      (fun s => by
        show validatePadding (List.replicate blkSize 0) = false
        decide)⟩

/-- C4 counterexample: take a cipher whose decryption of the attacked block
is d = [0, ..., 0, 2, 3]. During the very first brute-force round
(padLen = 1, all-zero working IV), the first byte reported padding-valid is
b = 1, because the decrypted block then ends in 02 02: its final byte is 2,
not the pad length 1, so the recorded intermediate byte is 1 xor 1 = 0
although the true intermediate byte is d[15] = 3. -/
theorem paddingOracle_padLen1_ambiguity :
    findFirstValid (mkDecOracle (fun _ => [0, 0, 0, 0, 0, 0, 0, 0, 0, 0, 0, 0, 0, 0, 2, 3]))
        (List.replicate blkSize 0) (List.replicate blkSize 7) 15 = some 1 ∧
    (mkDecOracle (fun _ => [0, 0, 0, 0, 0, 0, 0, 0, 0, 0, 0, 0, 0, 0, 2, 3])
        ((List.replicate blkSize 0).set 15 1 ++
          List.replicate blkSize 7)).getLastD 0 = 2 ∧
    (2 : Nat) ≠ 1 ∧
    (atkRound (mkDecOracle (fun _ => [0, 0, 0, 0, 0, 0, 0, 0, 0, 0, 0, 0, 0, 0, 2, 3]))
        (List.replicate blkSize 7) 1 (List.replicate blkSize 0)
        (List.replicate blkSize 0)).2.getLastD 0 = 0 ∧
    (0 : Nat) ≠ 3 := by
  decide

/-- Witness for pkcs7_spec at data = [1, 2, 3], s = 16. -/
theorem pkcs7_spec_witness :
    (1 ≤ 16 ∧ 16 ≤ 255) ∧
      (pkcs7 [1, 2, 3] 16 =
          [1, 2, 3] ++
            List.replicate (16 - [1, 2, 3].length % 16) (16 - [1, 2, 3].length % 16) ∧
        1 ≤ 16 - [1, 2, 3].length % 16 ∧ 16 - [1, 2, 3].length % 16 ≤ 16 ∧
        (pkcs7 [1, 2, 3] 16).length % 16 = 0 ∧
        [1, 2, 3].length < (pkcs7 [1, 2, 3] 16).length) :=
  ⟨⟨by decide, by decide⟩, pkcs7_spec [1, 2, 3] 16 (by decide) (by decide)⟩

end Cryptopals
